import Mathlib

/-!
Verification development for the reactive effect engine of the repository
(vue-learning-note): a shallow embedding of `effect.ts` (src/unnamed/part_000)
and `effectScope.ts` (src/packages/reactivity/index.js), together with proofs
about the embedded operations.

Modelling conventions:
* Targets (observed objects) are identified by natural numbers; their
  array/map shape (queried by the shared helpers `isArray` / `isMap`) is a
  fixed attribute of the state (`St.shape`), never mutated by the engine.
* Property keys are `DKey`: a string key, or one of the two reserved symbols
  `ITERATE_KEY` / `MAP_KEY_ITERATE_KEY`.
* Effects and scopes are identified by natural numbers; `St.effects` and
  `St.scopes` map identifiers to their records.
* User code (an effect's `fn`) is deep-embedded as a list of commands `Cmd`
  covering the engine's public entry points plus `throwErr` (an exception in
  user code) and `logActive` (user code reading the public `active` field,
  recorded in the ghost log).
* External user callbacks that the engine only calls out to (`onStop`, scope
  cleanup callbacks, schedulers) are abstracted: invoking one appends a ghost
  event to `St.log` and has no further effect on engine state.
* JavaScript `Set` iteration/insertion order is modelled by duplicate-free
  lists; `Map` iteration order by insertion-ordered association lists.
* Execution is a fuel-indexed interpreter `exec`; running out of fuel behaves
  like an exception (state returned unchanged from that point, exception flag
  set).  All theorems either hold for every fuel or assume normal completion.
-/

/-- Property keys seen by the engine: the reserved iteration symbols, or a
string key (the string "length" plays the special array-length role). -/
inductive DKey where
  | str (s : String)
  | iterK
  | mapIterK
deriving DecidableEq, Repr

/-- TriggerOpTypes from src/packages/reactivity/src/operations.ts. -/
inductive TrigType where
  | set
  | add
  | delete
  | clear
deriving DecidableEq, Repr

/-- TrackOpTypes from operations.ts (GET / HAS / ITERATE).  `track` never
branches on it (outside dev diagnostics), but we keep it for faithfulness. -/
inductive TrackType where
  | get
  | has
  | iterate
deriving DecidableEq, Repr

/-- Shape of an observed target, deciding the shared `isArray` / `isMap`
helpers that `trigger` branches on. -/
inductive TShape where
  | array
  | mapS
  | plain
deriving DecidableEq, Repr

/-- Ghost log events: calls out to user callbacks and user-code observations.
`tracked e t k` records that `trackEffects` subscribed effect `e` to the dep
of `(t, k)`; `effStop` marks the disposal branch of `ReactiveEffect.stop`;
`onStopEv` the invocation of an `onStop` callback; `cleanup` the invocation of
a scope cleanup callback; `sched` the invocation of a scheduler; `activeFlag`
is user code reading `effect.active`. -/
inductive Ev where
  | tracked (e : Nat) (t : Nat) (k : DKey)
  | effStop (e : Nat)
  | onStopEv (e : Nat)
  | cleanup (c : Nat)
  | sched (e : Nat)
  | activeFlag (e : Nat) (b : Bool)
deriving DecidableEq, Repr

/-- Deep-embedded user commands: the body of an effect's `fn` is a list of
these.  They cover the engine's public entry points. -/
inductive Cmd where
  | track (t : Nat) (ty : TrackType) (k : DKey)
  | trigger (t : Nat) (ty : TrigType) (k : Option DKey) (newVal : Int)
  | runEffect (e : Nat)
  | stopEffect (e : Nat)
  | scopeStop (s : Nat)
  | pause
  | enable
  | reset
  | throwErr
  | logActive (e : Nat)
deriving DecidableEq, Repr

/-- A Dep: the subscriber set of one (target, key) pair plus the two bitmask
fields `w` (was tracked) and `n` (newly tracked).  `effects` is kept
duplicate-free in insertion order, mirroring a JS `Set`. -/
structure DepRec where
  effects : List Nat := []
  w : Nat := 0
  n : Nat := 0
deriving DecidableEq, Repr

/-- A ReactiveEffect instance.  `deps` holds registry coordinates of the Deps
the effect subscribes to (JS holds direct references; every Dep of this
development lives in the registry).  `computed` models the truthiness of the
`computed` back-reference; `schedulerB` the presence of a scheduler;
`hasOnStop` the presence of an `onStop` callback. -/
structure EffectRec where
  active : Bool := true
  deps : List (Nat × DKey) := []
  parent : Option Nat := none
  computed : Bool := false
  allowRecurse : Bool := false
  deferStop : Bool := false
  hasOnStop : Bool := false
  schedulerB : Bool := false
  fn : List Cmd := []
deriving DecidableEq, Repr

instance : Inhabited EffectRec := ⟨{}⟩

/-- An EffectScope instance.  `scopes = none` models the not-yet-allocated
child array (`this.scopes` undefined). -/
structure ScopeRec where
  active : Bool := true
  effects : List Nat := []
  cleanups : List Nat := []
  parent : Option Nat := none
  scopes : Option (List Nat) := none
  index : Option Nat := none
  detached : Bool := false
deriving DecidableEq, Repr

instance : Inhabited ScopeRec := ⟨{}⟩

/-- The whole process state: the weakly-keyed registry `targetMap`
(insertion-ordered association lists), the effect and scope stores, and the
process-wide context variables of effect.ts, plus the ghost log. -/
structure St where
  targetMap : List (Nat × List (DKey × DepRec)) := []
  effects : Nat → EffectRec := fun _ => {}
  scopes : Nat → ScopeRec := fun _ => {}
  shape : Nat → TShape := fun _ => .plain
  activeEffect : Option Nat := none
  activeScope : Option Nat := none
  shouldTrack : Bool := true
  trackStack : List Bool := []
  depth : Nat := 0
  trackOpBit : Nat := 1
  log : List Ev := []

/-- Association-list lookup (Map.get). -/
def aGet {α : Type} [DecidableEq α] {β : Type} : List (α × β) → α → Option β
  | [], _ => none
  | (a, b) :: rest, x => if a = x then some b else aGet rest x

/-- Association-list update (Map.set): replaces in place, or appends a new
entry at the end, preserving JS Map insertion order. -/
def aSet {α : Type} [DecidableEq α] {β : Type} : List (α × β) → α → β → List (α × β)
  | [], x, v => [(x, v)]
  | (a, b) :: rest, x, v => if a = x then (x, v) :: rest else (a, b) :: aSet rest x v

/-- JS `Set.add`: append iff not already present. -/
def addSet (l : List Nat) (e : Nat) : List Nat :=
  if e ∈ l then l else l ++ [e]

/-- JS `Set.delete`: remove the element (sets hold no duplicates). -/
def delSet (l : List Nat) (e : Nat) : List Nat :=
  l.filter (· ≠ e)

/-- Clear the bits of `bit` in `x` (`x &= ~bit` on small integers). -/
def clearBit (x bit : Nat) : Nat :=
  x ^^^ (x &&& bit)

/-- Order-preserving first-occurrence deduplication, as produced by
`new Set(list)` followed by spreading. -/
def insertionDedup (l : List Nat) : List Nat :=
  l.foldl addSet []

/-- The registry dep at coordinates (t, k), if present. -/
def depAt (st : St) (t : Nat) (k : DKey) : Option DepRec :=
  match aGet st.targetMap t with
  | none => none
  | some m => aGet m k

/-- Overwrite the registry dep at (t, k); no-op when the slot is absent
(deps referenced by an effect always exist in reachable states). -/
def setDep (st : St) (t : Nat) (k : DKey) (d : DepRec) : St :=
  match aGet st.targetMap t with
  | none => st
  | some m => { st with targetMap := aSet st.targetMap t (aSet m k d) }

/-- Numeric value of a list of decimal digit characters. -/
def natOfDigits (cs : List Char) : Nat :=
  cs.foldl (fun acc c => 10 * acc + (c.toNat - 48)) 0

/-- The whitespace characters JavaScript's `Number(string)` trims before
parsing (the common StrWhiteSpaceChar set: space, tab, the line
terminators, vertical tab, form feed, no-break space and the BOM). -/
def isWSChar (c : Char) : Bool :=
  c = ' ' || c = '\t' || c = '\n' || c = '\r' ||
    c = '\x0b' || c = '\x0c' || c = '\u00a0' || c = '\ufeff'

/-- Trim leading and trailing whitespace, as `Number(string)` does. -/
def trimWS (cs : List Char) : List Char :=
  ((cs.dropWhile isWSChar).reverse.dropWhile isWSChar).reverse

/-- The value of a JavaScript string-to-number coercion: a finite value as
an exact decimal fraction `num / 10 ^ den10`, or one of the two infinities.
(`Number()` produces an IEEE float64; the model computes with the exact
decimal value instead, which agrees with the code on every comparison
except where float64 rounding of an extreme-precision literal would cross
the compared integer — a declared idealization.) -/
inductive JNum where
  | fin (num : Int) (den10 : Nat)
  | posInf
  | negInf
deriving DecidableEq, Repr

/-- Value of a hexadecimal digit character. -/
def hexDigitVal (c : Char) : Option Nat :=
  if '0' ≤ c ∧ c ≤ '9' then some (c.toNat - 48)
  else if 'a' ≤ c ∧ c ≤ 'f' then some (c.toNat - 87)
  else if 'A' ≤ c ∧ c ≤ 'F' then some (c.toNat - 55)
  else none

/-- Value of a digit string in the given radix (`none` on an invalid
digit), for the `0x`/`0o`/`0b` literal forms of `Number(string)`. -/
def radixVal (radix : Nat) (cs : List Char) : Option Nat :=
  cs.foldl
    (fun acc c =>
      match acc, hexDigitVal c with
      | some a, some v => if v < radix then some (radix * a + v) else none
      | _, _ => none)
    (some 0)

/-- Strip an optional leading sign, returning it as `1` or `-1`. -/
def splitSign (cs : List Char) : Int × List Char :=
  match cs with
  | c :: r => if c = '-' then (-1, r) else if c = '+' then (1, r) else (1, cs)
  | [] => (1, cs)

/-- The finite value `sign * ip.fp * 10 ^ ex` of a decimal literal, as an
exact fraction. -/
def decFin (sign : Int) (ip fp : List Char) (ex : Int) : JNum :=
  let m : Nat := natOfDigits (ip ++ fp)
  let e : Int := ex - fp.length
  if 0 ≤ e then .fin (sign * m * 10 ^ e.toNat) 0
  else .fin (sign * m) (-e).toNat

/-- Parse the optional `e`/`E` exponent part of a decimal literal; anything
left over makes the whole string NaN. -/
def parseExpPart (sign : Int) (ip fp : List Char) : List Char → Option JNum
  | [] => some (decFin sign ip fp 0)
  | c :: rest =>
    if c = 'e' ∨ c = 'E' then
      let sr := splitSign rest
      let ed := sr.2.takeWhile Char.isDigit
      let rest2 := sr.2.dropWhile Char.isDigit
      if ed ≠ [] ∧ rest2 = [] then
        some (decFin sign ip fp (sr.1 * (natOfDigits ed : Int)))
      else none
    else none

/-- Parse an unsigned decimal literal (`digits`, `digits.digits`,
`.digits`, `digits.`, each with an optional exponent). -/
def parseDec (sign : Int) (cs : List Char) : Option JNum :=
  let ip := cs.takeWhile Char.isDigit
  let cs1 := cs.dropWhile Char.isDigit
  match cs1 with
  | '.' :: cs2 =>
    let fp := cs2.takeWhile Char.isDigit
    let cs3 := cs2.dropWhile Char.isDigit
    if ip = [] ∧ fp = [] then none
    else parseExpPart sign ip fp cs3
  | _ => if ip = [] then none else parseExpPart sign ip [] cs1

/-- Parse an optionally signed decimal literal or `Infinity`. -/
def parseSigned (cs : List Char) : Option JNum :=
  let sr := splitSign cs
  if sr.2 = "Infinity".data then
    some (if sr.1 = 1 then .posInf else .negInf)
  else parseDec sr.1 sr.2

/-- JavaScript `Number(s)` on a string key (`none` is NaN): trim whitespace,
an empty remainder coerces to 0; unsigned `0x`/`0o`/`0b` radix literals;
otherwise an optionally signed decimal literal (integer, fraction with `.`,
optional `e`/`E` exponent) or `Infinity`.  Values are exact decimal
fractions (see `JNum` for the float64 idealization). -/
def jsNum (s : String) : Option JNum :=
  match trimWS s.data with
  | [] => some (.fin 0 0)
  | c0 :: c1 :: rest =>
    if c0 = '0' ∧ (c1 = 'x' ∨ c1 = 'X') then
      if rest ≠ [] then (radixVal 16 rest).map (fun v => JNum.fin v 0) else none
    else if c0 = '0' ∧ (c1 = 'o' ∨ c1 = 'O') then
      if rest ≠ [] then (radixVal 8 rest).map (fun v => JNum.fin v 0) else none
    else if c0 = '0' ∧ (c1 = 'b' ∨ c1 = 'B') then
      if rest ≠ [] then (radixVal 2 rest).map (fun v => JNum.fin v 0) else none
    else parseSigned (c0 :: c1 :: rest)
  | cs => parseSigned cs

/-- `v ≥ n` on a coerced value: `+Infinity` beats everything, `-Infinity`
nothing, and `num / 10 ^ den10 ≥ n` iff `n * 10 ^ den10 ≤ num`. -/
def jnumGE : JNum → Int → Bool
  | .posInf, _ => true
  | .negInf, _ => false
  | .fin num den, n => decide (n * ((10 : Int) ^ den) ≤ num)

/-- The JS comparison `key >= newLength` used by trigger's array-length
branch: string keys coerce through `jsNum` (a NaN comparison is false).  On
a symbol key JavaScript would throw a TypeError; the model returns false
there, and the C4 theorem restricts the inner map to string keys, which is
what an array target's `depsMap` holds. -/
def keyGE (k : DKey) (n : Int) : Bool :=
  match k with
  | .str s =>
    match jsNum s with
    | some v => jnumGE v n
    | none => false
  | _ => false

/-- Modelled from the spec: the shared helper `isIntegerKey` (its source,
`@vue/shared`, is not under src/) — a key is an integer key iff it is the
canonical decimal numeral of a non-negative integer. -/
def isIntegerKey (k : DKey) : Bool :=
  match k with
  | .str s =>
    s.data ≠ [] && s.data.all Char.isDigit &&
      (s = "0" || s.data.headI ≠ '0')
  | _ => false

/-- Modelled from the spec: `createDep` from dep.ts (not under src/) — a fresh
empty subscriber set with cleared bitmasks. -/
def createDep : DepRec := {}

/-- Modelled from the spec: `wasTracked` from dep.ts — bit of `w` at the
current `trackOpBit` position. -/
def wasTrackedB (d : DepRec) (bit : Nat) : Bool :=
  d.w &&& bit ≠ 0

/-- Modelled from the spec: `newTracked` from dep.ts — bit of `n` at the
current `trackOpBit` position. -/
def newTrackedB (d : DepRec) (bit : Nat) : Bool :=
  d.n &&& bit ≠ 0

/-- The bitwise track markers support at most 30 levels of recursion
(`maxMarkerBits`). -/
def maxMarkerBits : Nat := 30

/-- Modelled from the spec: `initDepMarkers` from dep.ts (not under src/) —
on entering a run, mark every Dep currently in `effect.deps` as was-tracked
at the current depth bit and clear its newly-tracked bit. -/
def initDepMarkers (e : Nat) (st : St) : St :=
  ((st.effects e).deps).foldl
    (fun acc tk =>
      match depAt acc tk.1 tk.2 with
      | none => acc
      | some d =>
        setDep acc tk.1 tk.2
          { d with w := d.w ||| acc.trackOpBit, n := clearBit d.n acc.trackOpBit })
    st

/-- Modelled from the spec: `finalizeDepMarkers` from dep.ts (not under
src/) — on leaving a run, drop the effect from every Dep that was tracked
before the run but not re-tracked during it, compact `effect.deps`
accordingly, and clear both marker bits at the current depth on every Dep
that was visited. -/
def finalizeDepMarkers (e : Nat) (st : St) : St :=
  let ds := (st.effects e).deps
  let step := fun (acc : St × List (Nat × DKey)) (tk : Nat × DKey) =>
    match depAt acc.1 tk.1 tk.2 with
    | none => (acc.1, acc.2 ++ [tk])
    | some d =>
      if wasTrackedB d acc.1.trackOpBit ∧ ¬ newTrackedB d acc.1.trackOpBit then
        (setDep acc.1 tk.1 tk.2
          { effects := delSet d.effects e,
            w := clearBit d.w acc.1.trackOpBit, n := clearBit d.n acc.1.trackOpBit },
         acc.2)
      else
        (setDep acc.1 tk.1 tk.2
          { d with w := clearBit d.w acc.1.trackOpBit, n := clearBit d.n acc.1.trackOpBit },
         acc.2 ++ [tk])
  let r := ds.foldl step (st, [])
  let st1 := r.1
  { st1 with effects := Function.update st1.effects e { st1.effects e with deps := r.2 } }

/-- `cleanupEffect` (effect.ts): delete the effect from every Dep in its
`deps` list and clear the list. -/
def cleanupEffect (e : Nat) (st : St) : St :=
  let ds := (st.effects e).deps
  let st1 := ds.foldl
    (fun acc tk =>
      match depAt acc tk.1 tk.2 with
      | none => acc
      | some d => setDep acc tk.1 tk.2 { d with effects := delSet d.effects e })
    st
  { st1 with effects := Function.update st1.effects e { st1.effects e with deps := [] } }

/-- `ReactiveEffect.stop` (effect.ts): defer when the effect is the currently
active one; otherwise, if still active, clean up, invoke `onStop` when
present, and deactivate.  The ghost `Ev.effStop` event marks the disposal
branch for ordering statements. -/
def stopEffect (e : Nat) (st : St) : St :=
  if st.activeEffect = some e then
    { st with effects := Function.update st.effects e { st.effects e with deferStop := true } }
  else if (st.effects e).active then
    let st1 := cleanupEffect e st
    let st2 := { st1 with log := st1.log ++ [Ev.effStop e] }
    let st3 :=
      if (st2.effects e).hasOnStop then { st2 with log := st2.log ++ [Ev.onStopEv e] }
      else st2
    { st3 with effects := Function.update st3.effects e { st3.effects e with active := false } }
  else st

/-- `pauseTracking` (effect.ts). -/
def pauseTracking (st : St) : St :=
  { st with trackStack := st.shouldTrack :: st.trackStack, shouldTrack := false }

/-- `enableTracking` (effect.ts). -/
def enableTracking (st : St) : St :=
  { st with trackStack := st.shouldTrack :: st.trackStack, shouldTrack := true }

/-- `resetTracking` (effect.ts): pop the previous flag; an empty stack pops
`undefined`, which restores `true`. -/
def resetTracking (st : St) : St :=
  match st.trackStack with
  | [] => { st with shouldTrack := true }
  | b :: rest => { st with shouldTrack := b, trackStack := rest }

/-- `trackEffects` (effect.ts) on the registry path: run the bitmask fast
path (depth within `maxMarkerBits`) or the membership fallback on the Dep at
(t, k) (passed as its looked-up value `dep0` inside the inner map `m0`), and
on a first-time subscription link both sides: add the active effect `a` to
the Dep and push the Dep's coordinates onto the effect's `deps`.  The ghost
`Ev.tracked` event records the subscription. -/
def trackEffects (a t : Nat) (k : DKey) (m0 : List (DKey × DepRec)) (dep0 : DepRec)
    (st : St) : St :=
  let fast := st.depth ≤ maxMarkerBits
  let dep1 :=
    if fast ∧ ¬ newTrackedB dep0 st.trackOpBit then
      { dep0 with n := dep0.n ||| st.trackOpBit }
    else dep0
  let doAdd :=
    if fast then
      if ¬ newTrackedB dep0 st.trackOpBit then ¬ wasTrackedB dep0 st.trackOpBit
      else False
    else ¬ (a ∈ dep0.effects)
  let dep2 :=
    if doAdd then { dep1 with effects := addSet dep1.effects a } else dep1
  let st1 := { st with targetMap := aSet st.targetMap t (aSet m0 k dep2) }
  if doAdd then
    { st1 with
      effects := Function.update st1.effects a
        { st1.effects a with deps := (st1.effects a).deps ++ [(t, k)] },
      log := st1.log ++ [Ev.tracked a t k] }
  else st1

/-- `track` (effect.ts): when tracking is on and an effect is active, look
up or create the inner map and the Dep, then delegate to `trackEffects`. -/
def track (t : Nat) (_ty : TrackType) (k : DKey) (st : St) : St :=
  match st.activeEffect with
  | none => st
  | some a =>
    if st.shouldTrack then
      let m0 := match aGet st.targetMap t with
        | some m => m
        | none => []
      let dep0 := match aGet m0 k with
        | some d => d
        | none => createDep
      trackEffects a t k m0 dep0 st
    else st

/-- The `EffectScope` constructor (effectScope.ts), allocating the given
fresh scope identifier: `this.parent = activeEffectScope` is assigned
unconditionally; a non-detached scope constructed under an active scope is
additionally pushed onto the parent's child list with its index recorded. -/
def newEffectScope (sid : Nat) (detached : Bool) (st : St) : St :=
  let base : ScopeRec :=
    { active := true, effects := [], cleanups := [], parent := st.activeScope,
      scopes := none, index := none, detached := detached }
  match st.activeScope with
  | some p =>
    if ¬ detached then
      let pr := st.scopes p
      let newList := pr.scopes.getD [] ++ [sid]
      { st with
        scopes := Function.update
          (Function.update st.scopes p { pr with scopes := some newList })
          sid { base with index := some (newList.length - 1) } }
    else
      { st with scopes := Function.update st.scopes sid base }
  | none =>
    { st with scopes := Function.update st.scopes sid base }

/-- The Dep selection of `trigger` (effect.ts): given the target's inner map
and shape, produce the list of selected Deps (`undefined` entries included,
mirroring pushes of absent `depsMap.get` results). -/
def triggerDeps (m : List (DKey × DepRec)) (shape : TShape) (ty : TrigType)
    (key : Option DKey) (newVal : Int) : List (Option DepRec) :=
  if ty = .clear then
    m.map (fun kv => some kv.2)
  else if key = some (.str "length") ∧ shape = .array then
    (m.filter (fun kv => kv.1 = .str "length" || keyGE kv.1 newVal)).map
      (fun kv => some kv.2)
  else
    let base : List (Option DepRec) :=
      match key with
      | some k => [aGet m k]
      | none => []
    base ++
      (match ty with
       | .add =>
         if shape ≠ .array then
           [aGet m .iterK] ++ (if shape = .mapS then [aGet m .mapIterK] else [])
         else if isIntegerKey (key.getD (.str "")) then
           [aGet m (.str "length")]
         else []
       | .delete =>
         if shape ≠ .array then
           [aGet m .iterK] ++ (if shape = .mapS then [aGet m .mapIterK] else [])
         else []
       | .set =>
         if shape = .mapS then [aGet m .iterK] else []
       | .clear => [])

/-- The entry assignments of `ReactiveEffect.run` (try block prologue):
record the previous active effect in `this.parent`, install this effect as
the active one, enable tracking, and bump the recursion depth and its bit. -/
def runEnter (e : Nat) (st : St) : St :=
  { st with
    effects := Function.update st.effects e { st.effects e with parent := st.activeEffect },
    activeEffect := some e,
    shouldTrack := true,
    depth := st.depth + 1,
    trackOpBit := 1 <<< (st.depth + 1) }

/-- The restoring assignments of `ReactiveEffect.run`'s `finally` block:
finalize the dep markers (when within the bitmask depth), pop the recursion
depth and its bit, restore the active effect from `this.parent` and
`shouldTrack` from the saved flag, and clear `this.parent`. -/
def runExitCore (e : Nat) (lastShouldTrack : Bool) (st : St) : St :=
  let st4 := if st.depth ≤ maxMarkerBits then finalizeDepMarkers e st else st
  { st4 with
    depth := st4.depth - 1,
    trackOpBit := 1 <<< (st4.depth - 1),
    activeEffect := (st4.effects e).parent,
    shouldTrack := lastShouldTrack,
    effects := Function.update st4.effects e { st4.effects e with parent := none } }

/-- The `finally` block of `ReactiveEffect.run`: the restoring assignments,
then the deferred `stop` when one was requested during the run. -/
def runExit (e : Nat) (lastShouldTrack : Bool) (st : St) : St :=
  let st5 := runExitCore e lastShouldTrack st
  if (st5.effects e).deferStop then stopEffect e st5 else st5

/-- Phases (a) and (b) of `EffectScope.stop`: stop every owned effect, then
invoke every cleanup callback in registration order. -/
def scopePhase12 (s : Nat) (st : St) : St :=
  let st1 := (st.scopes s).effects.foldl (fun acc e => stopEffect e acc) st
  ((st1.scopes s).cleanups).foldl
    (fun acc c => { acc with log := acc.log ++ [Ev.cleanup c] }) st1

/-- Phases (d) and (e) of `EffectScope.stop`: for a non-detached,
non-parent-initiated stop with a live parent link, perform the O(1) swap
removal from the parent's child list (pop the last child and, when it is a
different scope, move it into this scope's slot, updating its index); then
drop the parent link and deactivate. -/
def scopeFinish (s : Nat) (fromParent : Bool) (st : St) : St :=
  let sr3 := st.scopes s
  let st4 : St :=
    if (!sr3.detached && !fromParent) = true then
      match sr3.parent with
      | some p =>
        let ps := (st.scopes p).scopes.getD []
        let stP : St :=
          { st with
            scopes := Function.update st.scopes p
              { st.scopes p with scopes := some ps.dropLast } }
        match ps.getLast? with
        | some l =>
          if l ≠ s then
            match sr3.index with
            | some i =>
              let pr := stP.scopes p
              let stQ : St :=
                { stP with
                  scopes := Function.update stP.scopes p
                    { pr with scopes := some ((pr.scopes.getD []).set i l) } }
              { stQ with
                scopes := Function.update stQ.scopes l
                  { stQ.scopes l with index := some i } }
            | none => stP
          else stP
        | none => stP
      | none => st
    else st
  { st4 with
    scopes := Function.update st4.scopes s
      { st4.scopes s with parent := none, active := false } }

/-- The self-recursion guard of `ReactiveEffect.run`: walk the `parent` chain
starting at the currently active effect looking for the effect about to run.
Recursion is fuel-bounded; running out of fuel answers `true` (treat as
found), which makes the walk exact on every reachable state given enough
fuel and harmlessly conservative otherwise. -/
def chainHas : Nat → St → Option Nat → Nat → Bool
  | 0, _, _, _ => true
  | _ + 1, _, none, _ => false
  | f + 1, st, some p, e =>
    if p = e then true else chainHas f st ((st.effects p).parent) e

/-- Work items of the interpreter: user command sequences, and the engine's
recursive internals (`ReactiveEffect.run`, `triggerEffects` with its two
phase loops, `triggerEffect`, `EffectScope.stop` with its child loop). -/
inductive ETask where
  | cmds (cs : List Cmd)
  | runE (e : Nat)
  | trigEffs (ids : List Nat)
  | trigList (phase : Bool) (ids : List Nat)
  | trigEff (e : Nat)
  | scStop (s : Nat) (fromParent : Bool)
  | scKids (ks : List Nat)

/-- The dispatch of `trigger` after Dep selection: a single selected entry is
handed to `triggerEffects` directly (skipped when `undefined`); otherwise the
selected Deps' effects are flattened into one deduplicated list
(`createDep(effects)` wraps them in a fresh Set) and handed over. -/
def trigTask (m : List (DKey × DepRec)) (shape : TShape) (ty : TrigType)
    (key : Option DKey) (nv : Int) : Option ETask :=
  let ds := triggerDeps m shape ty key nv
  match ds with
  | [od] =>
    match od with
    | some d => some (.trigEffs d.effects)
    | none => none
  | _ => some (.trigEffs (insertionDedup ((ds.filterMap id).flatMap DepRec.effects)))

/-- The fuel-indexed interpreter.  Returns the final state, an exception
flag (user `throwErr`, or fuel exhaustion, which behaves like an exception),
and the list of effects directly invoked by this task when it is one of the
`triggerEffects` internals (the ghost observation backing the ordering
claims; it is `[]` for every other task). -/
def exec : Nat → ETask → St → St × Bool × List Nat
  | 0, _, st => (st, true, [])
  | f + 1, task, st =>
    match task with
    | .cmds [] => (st, false, [])
    | .cmds (c :: cs) =>
      match c with
      | .track t ty k => exec f (.cmds cs) (track t ty k st)
      | .pause => exec f (.cmds cs) (pauseTracking st)
      | .enable => exec f (.cmds cs) (enableTracking st)
      | .reset => exec f (.cmds cs) (resetTracking st)
      | .logActive e =>
        exec f (.cmds cs)
          { st with log := st.log ++ [Ev.activeFlag e (st.effects e).active] }
      | .stopEffect e => exec f (.cmds cs) (stopEffect e st)
      | .throwErr => (st, true, [])
      | .runEffect e =>
        let r := exec f (.runE e) st
        if r.2.1 then (r.1, true, []) else exec f (.cmds cs) r.1
      | .scopeStop s =>
        let r := exec f (.scStop s false) st
        exec f (.cmds cs) r.1
      | .trigger t ty k nv =>
        match aGet st.targetMap t with
        | none => exec f (.cmds cs) st
        | some m =>
          match trigTask m (st.shape t) ty k nv with
          | none => exec f (.cmds cs) st
          | some tk =>
            let r := exec f tk st
            if r.2.1 then (r.1, true, []) else exec f (.cmds cs) r.1
    | .runE e =>
      if ¬ (st.effects e).active then
        -- inactive effect: plain call of fn, no context switch, no finally
        let r := exec f (.cmds (st.effects e).fn) st
        (r.1, r.2.1, [])
      else if chainHas (f + 1) st st.activeEffect e then (st, false, [])
      else
        let st1 := runEnter e st
        let st2 :=
          if st1.depth ≤ maxMarkerBits then initDepMarkers e st1 else cleanupEffect e st1
        let r := exec f (.cmds (st.effects e).fn) st2
        (runExit e st.shouldTrack r.1, r.2.1, [])
    | .trigEffs ids =>
      let r1 := exec f (.trigList true ids) st
      if r1.2.1 then (r1.1, true, r1.2.2)
      else
        let r2 := exec f (.trigList false ids) r1.1
        (r2.1, r2.2.1, r1.2.2 ++ r2.2.2)
    | .trigList _ [] => (st, false, [])
    | .trigList ph (e :: rest) =>
      if (st.effects e).computed = ph then
        let r := exec f (.trigEff e) st
        if r.2.1 then (r.1, true, r.2.2)
        else
          let r2 := exec f (.trigList ph rest) r.1
          (r2.1, r2.2.1, r.2.2 ++ r2.2.2)
      else exec f (.trigList ph rest) st
    | .trigEff e =>
      if st.activeEffect ≠ some e ∨ (st.effects e).allowRecurse = true then
        if (st.effects e).schedulerB then
          ({ st with log := st.log ++ [Ev.sched e] }, false, [e])
        else
          let r := exec f (.runE e) st
          (r.1, r.2.1, [e])
      else (st, false, [])
    | .scStop s fromParent =>
      if ¬ (st.scopes s).active then (st, false, [])
      else
        let st2 := scopePhase12 s st
        let st3 :=
          match (st2.scopes s).scopes with
          | none => st2
          | some ks => (exec f (.scKids ks) st2).1
        (scopeFinish s fromParent st3, false, [])
    | .scKids [] => (st, false, [])
    | .scKids (c :: cs) =>
      let r := exec f (.scStop c true) st
      exec f (.scKids cs) r.1

/-- The invariant tying the two context variables of effect.ts together:
`trackOpBit` is the single bit at the current recursion depth.  It holds in
the initial state (`1 = 1 <<< 0`) and is maintained by every entry point. -/
def trackBitInv (st : St) : Prop :=
  st.trackOpBit = 1 <<< st.depth

/-- `L` is the current run stack: `activeEffect` is its head, the `parent`
fields link successive entries (the last one to `undefined`), entries are
distinct, and every effect outside the stack has a cleared `parent` slot.
This is the shape every reachable state has, `L` listing the effects whose
`run` is currently on the call stack, innermost first. -/
def Stacked (L : List Nat) (st : St) : Prop :=
  st.activeEffect = L.head? ∧ L.Nodup ∧
  (∀ (i : Nat) (h : i < L.length), (st.effects (L.get ⟨i, h⟩)).parent = L[i + 1]?) ∧
  (∀ x, x ∉ L → (st.effects x).parent = none)

/-- The fields of an effect record that the engine itself never mutates
(only user option setup writes them), together with the `parent` slot, which
every balanced execution restores. -/
def effSame (er er' : EffectRec) : Prop :=
  er'.parent = er.parent ∧ er'.computed = er.computed ∧
  er'.allowRecurse = er.allowRecurse ∧ er'.schedulerB = er.schedulerB ∧
  er'.hasOnStop = er.hasOnStop ∧ er'.fn = er.fn

/-- What every engine entry point preserves: the active effect, the
recursion depth and its bit, the target shapes, and every effect's `parent`
slot and static fields. -/
def Pres (st st' : St) : Prop :=
  st'.activeEffect = st.activeEffect ∧
  st'.depth = st.depth ∧
  st'.trackOpBit = st.trackOpBit ∧
  st'.shape = st.shape ∧
  ∀ x, effSame (st.effects x) (st'.effects x)

/-- The guard of `triggerEffect`: the effect is notified unless it is the
currently active effect with `allowRecurse` unset. -/
def notifies (st : St) (e : Nat) : Bool :=
  decide (st.activeEffect ≠ some e) || (st.effects e).allowRecurse

/-- Effect `e` is subscribed to no Dep of the registry. -/
def depsClean (e : Nat) (st : St) : Prop :=
  ∀ t k d, depAt st t k = some d → e ∉ d.effects

/-- An effect that is inactive and subscribed nowhere, is not the active
effect, and is nobody's `parent`: the configuration in which it can never
become subscribed (used for the amended claim about inactive runs). -/
def neverSubscribed (e : Nat) (st : St) : Prop :=
  (st.effects e).active = false ∧
  depsClean e st ∧
  st.activeEffect ≠ some e ∧
  (∀ x, (st.effects x).parent ≠ some e)

/-- Effect `e` is subscribed to the Dep at (t, k) with the newly-tracked bit
of depth `d` set — the configuration `trackEffects` leaves behind when the
run at depth `d` subscribes `e`. -/
def trackedQ (e t : Nat) (k : DKey) (d : Nat) (st : St) : Prop :=
  ∃ dep, depAt st t k = some dep ∧ e ∈ dep.effects ∧ dep.n &&& (1 <<< d) ≠ 0

/-- Effect `e` has been hit by a `stop` call: either disposed (inactive) or
marked for deferred disposal.  Both flags are sticky. -/
def stoppedFlag (e : Nat) (st : St) : Prop :=
  (st.effects e).active = false ∨ (st.effects e).deferStop = true

/-- The scope identifiers `EffectScope.stop` visits, mirrored on the
interpreter's fuel pattern (without the activity tests, so it is a superset
of the scopes actually touched). -/
def scopeIdList : Nat → ETask → St → List Nat
  | 0, _, _ => []
  | f + 1, .scStop s _, st =>
    s :: (match (st.scopes s).scopes with
          | none => []
          | some ks => scopeIdList f (.scKids ks) st)
  | _ + 1, .scKids [], _ => []
  | f + 1, .scKids (c :: cs), st =>
    scopeIdList f (.scStop c true) st ++ scopeIdList f (.scKids cs) st
  | _ + 1, _, _ => []

/-- The effects transitively owned by a scope, mirrored on the interpreter's
fuel pattern. -/
def scopeEffList : Nat → ETask → St → List Nat
  | 0, _, _ => []
  | f + 1, .scStop s _, st =>
    (st.scopes s).effects ++
      (match (st.scopes s).scopes with
       | none => []
       | some ks => scopeEffList f (.scKids ks) st)
  | _ + 1, .scKids [], _ => []
  | f + 1, .scKids (c :: cs), st =>
    scopeEffList f (.scStop c true) st ++ scopeEffList f (.scKids cs) st
  | _ + 1, _, _ => []

/-- All scopes the stop cascade would visit are active (so none is skipped
by the `_active` test). -/
def allActiveScopes : Nat → ETask → St → Bool
  | 0, _, _ => true
  | f + 1, .scStop s _, st =>
    (st.scopes s).active &&
      (match (st.scopes s).scopes with
       | none => true
       | some ks => allActiveScopes f (.scKids ks) st)
  | _ + 1, .scKids [], _ => true
  | f + 1, .scKids (c :: cs), st =>
    allActiveScopes f (.scStop c true) st && allActiveScopes f (.scKids cs) st
  | _ + 1, _, _ => true

/-- The ghost events `ReactiveEffect.stop` emits for a list of owned effects
(an `effStop` marker, plus the `onStop` call when present, for each effect
that is active and not the currently running one). -/
def stopEvts (l : List Nat) (st : St) : List Ev :=
  l.foldr
    (fun e acc =>
      (if st.activeEffect ≠ some e ∧ (st.effects e).active then
        Ev.effStop e :: (if (st.effects e).hasOnStop then [Ev.onStopEv e] else [])
      else []) ++ acc)
    []

/-- The log `EffectScope.stop` appends, predicted from the initial state:
for each visited active scope, the owned effects' stop events, then the
cleanup callbacks in registration order, then the child scopes' logs,
recursively.  Mirrored on the interpreter's fuel pattern. -/
def scopeStopLog : Nat → ETask → St → List Ev
  | 0, _, _ => []
  | f + 1, .scStop s _, st =>
    if (st.scopes s).active then
      stopEvts (st.scopes s).effects st ++
        ((st.scopes s).cleanups).map Ev.cleanup ++
        (match (st.scopes s).scopes with
         | none => []
         | some ks => scopeStopLog f (.scKids ks) st)
    else []
  | _ + 1, .scKids [], _ => []
  | f + 1, .scKids (c :: cs), st =>
    scopeStopLog f (.scStop c true) st ++ scopeStopLog f (.scKids cs) st
  | _ + 1, _, _ => []

/-- Numeric value of an integer key. -/
def intKeyVal : DKey → Nat
  | .str s => natOfDigits s.data
  | _ => 0

/-- The selection predicate asserted by the original claim C4, following the
spec's words: the "length" key, or an integer key whose value is at least
`Number(newValue)`. -/
def claimC4Sel (k : DKey) (n : Int) : Bool :=
  k = .str "length" || (isIntegerKey k && (n ≤ (intKeyVal k : Int)))

/-- Example dep subscribed by effect 5 (under key "length"). -/
def exDepL : DepRec := { effects := [5] }

/-- Example dep subscribed by effect 7 (under the non-integer numeric key
"1.5"). -/
def exDepX : DepRec := { effects := [7] }

/-- Example dep subscribed by effect 9 (under the non-numeric key "foo"). -/
def exDepF : DepRec := { effects := [9] }

/-- Example inner map of an array target holding deps under "length",
"1.5" and "foo". -/
def exMapC4 : List (DKey × DepRec) :=
  [(.str "length", exDepL), (.str "1.5", exDepX), (.str "foo", exDepF)]

/-- Example inner map for the C4 witness: deps under "length", under the
exponent-notation key "1e3" (which JS coerces to 1000) and under the
whitespace-padded key " 2" (which JS coerces to 2). -/
def exMapC4w : List (DKey × DepRec) :=
  [(.str "length", exDepL), (.str "1e3", exDepX), (.str " 2", exDepF)]

/-- A state with scope 0 active and current. -/
def exStC1 : St := { activeScope := some 0 }

/-- Active effect 1 whose fn runs the inactive effect 2; effect 2's fn reads
property "x" of target 5. -/
def exStC2 : St :=
  { effects := fun n =>
      if n = 1 then { fn := [.runEffect 2] }
      else if n = 2 then { active := false, fn := [.track 5 .get (.str "x")] }
      else {} }

/-- Effect 1 runs effect 2 nested; effect 2 stops effect 1 (the outer,
currently running effect) and then observes its `active` flag. -/
def exStC3 : St :=
  { effects := fun n =>
      if n = 1 then { fn := [.runEffect 2] }
      else if n = 2 then { fn := [.stopEffect 1, .logActive 1] }
      else {} }

/-- An inactive effect whose fn pauses tracking and then throws. -/
def exStC9 : St :=
  { effects := fun n =>
      if n = 3 then { active := false, fn := [.pause, .throwErr] } else {} }

/-- An active effect 6 (still idle) that reads (2, "y") and then throws. -/
def exStC9w : St :=
  { effects := fun n =>
      if n = 6 then { fn := [.track 2 .get (.str "y"), .throwErr] } else {} }

/-- Scope 0 owns effect 1, whose fn stops scope 0 from inside its own run
and then observes its `active` flag. -/
def exStC7r : St :=
  { effects := fun n => if n = 1 then { fn := [.scopeStop 0, .logActive 1] } else {},
    scopes := fun n => if n = 0 then { effects := [1] } else {} }

/-- Scope 0 has children 5 and 6; scope 5 owns effect 3 (with an onStop
callback, subscribed at (4, "a")) and cleanup 11, and has child scope 8,
which owns effect 7. -/
def exStC7w : St :=
  { effects := fun n =>
      if n = 3 then { deps := [(4, .str "a")], hasOnStop := true }
      else {},
    scopes := fun n =>
      if n = 0 then { scopes := some [5, 6] }
      else if n = 5 then
        { effects := [3], cleanups := [11], scopes := some [8],
          parent := some 0, index := some 0 }
      else if n = 6 then { parent := some 0, index := some 1 }
      else if n = 8 then { effects := [7], parent := some 5, index := some 0 }
      else {},
    targetMap := [(4, [(.str "a", { effects := [3] })])] }

/-- Three scheduled effects, the middle one computed. -/
def exStC5w : St :=
  { effects := fun n =>
      if n = 1 then { schedulerB := true }
      else if n = 2 then { computed := true, schedulerB := true }
      else if n = 3 then { schedulerB := true }
      else {} }

/-- Effect 1 is currently running (without allowRecurse); effect 2 is
scheduled. -/
def exStC6w : St :=
  { effects := fun n =>
      if n = 1 then { schedulerB := true }
      else if n = 2 then { schedulerB := true }
      else {},
    activeEffect := some 1, depth := 1, trackOpBit := 2 }

/-- An inactive, nowhere-subscribed effect 4 whose fn reads (0, "a"). -/
def exStC2w : St :=
  { effects := fun n =>
      if n = 4 then { active := false, fn := [.track 0 .get (.str "a")] } else {} }

/-- An idle effect 2 subscribed to (8, "b"), with an onStop callback. -/
def exStC3w : St :=
  { effects := fun n =>
      if n = 2 then { deps := [(8, .str "b")], hasOnStop := true } else {},
    targetMap := [(8, [(.str "b", { effects := [2] })])] }

/-- The body execution of an active `run()` at fuel `f`: the state and
exception flag `fn` produces inside the `try` block, after the entry
assignments and the dep-marker prologue, just before the `finally` block
runs.  Abbreviates the corresponding subterm of `exec` on `.runE`. -/
def runBody (f e : Nat) (st : St) : St × Bool × List Nat :=
  exec f (.cmds (st.effects e).fn)
    (if (runEnter e st).depth ≤ maxMarkerBits then initDepMarkers e (runEnter e st)
     else cleanupEffect e (runEnter e st))

/-- The invariant a `scStop`/`scKids` execution maintains (the master
conclusion pack of the `EffectScope.stop` cascade): the appended log matches
the `scopeStopLog` prediction; `activeEffect` is untouched; when
`keepScopes` is set (a parent-initiated stop performs no swap removal) every
unvisited scope record is untouched; the `active` flag of every effect off
the owned list is untouched, every owned effect ends inactive, inactivity is
sticky, and `hasOnStop` is everywhere untouched. -/
def ScConcl (f : Nat) (tk : ETask) (keepScopes : Bool) (st : St) : Prop :=
  (exec f tk st).1.log = st.log ++ scopeStopLog f tk st ∧
  (exec f tk st).1.activeEffect = st.activeEffect ∧
  (keepScopes = true →
    ∀ x, x ∉ scopeIdList f tk st → (exec f tk st).1.scopes x = st.scopes x) ∧
  (∀ e, e ∉ scopeEffList f tk st →
    ((exec f tk st).1.effects e).active = (st.effects e).active) ∧
  (∀ e, e ∈ scopeEffList f tk st → ((exec f tk st).1.effects e).active = false) ∧
  (∀ e, (st.effects e).active = false → ((exec f tk st).1.effects e).active = false) ∧
  (∀ e, ((exec f tk st).1.effects e).hasOnStop = (st.effects e).hasOnStop)


lemma effSame_refl (er : EffectRec) : effSame er er :=
  ⟨rfl, rfl, rfl, rfl, rfl, rfl⟩

lemma effSame_trans {a b c : EffectRec} (h1 : effSame a b) (h2 : effSame b c) : effSame a c := by
  obtain ⟨p1, c1, r1, s1, o1, f1⟩ := h1
  obtain ⟨p2, c2, r2, s2, o2, f2⟩ := h2
  exact ⟨p2.trans p1, c2.trans c1, r2.trans r1, s2.trans s1, o2.trans o1, f2.trans f1⟩

lemma pres_refl (st : St) : Pres st st :=
  ⟨rfl, rfl, rfl, rfl, fun _ => effSame_refl _⟩

lemma pres_trans {a b c : St} (h1 : Pres a b) (h2 : Pres b c) : Pres a c := by
  obtain ⟨e1, d1, t1, s1, f1⟩ := h1
  obtain ⟨e2, d2, t2, s2, f2⟩ := h2
  exact ⟨e2.trans e1, d2.trans d1, t2.trans t1, s2.trans s1,
    fun x => effSame_trans (f1 x) (f2 x)⟩

lemma pres_update_effect {st : St} {e : Nat} {v : EffectRec}
    (hv : effSame (st.effects e) v) :
    Pres st { st with effects := Function.update st.effects e v } := by
  refine ⟨rfl, rfl, rfl, rfl, fun x => ?_⟩
  by_cases hx : x = e
  · subst hx; simpa [Function.update_apply] using hv
  · simp [Function.update_apply, hx, effSame_refl]

lemma pres_simple {st : St} {tm : List (Nat × List (DKey × DepRec))}
    {sc : Nat → ScopeRec} {asc : Option Nat} {stk : Bool} {ts : List Bool} {lg : List Ev} :
    Pres st { st with targetMap := tm, scopes := sc, activeScope := asc,
                      shouldTrack := stk, trackStack := ts, log := lg } :=
  ⟨rfl, rfl, rfl, rfl, fun _ => effSame_refl _⟩

lemma pres_foldl {α : Type} {g : α → St → St} (hg : ∀ x st, Pres st (g x st)) :
    ∀ (l : List α) (st : St), Pres st (l.foldl (fun acc x => g x acc) st) := by
  intro l
  induction l with
  | nil => intro st; exact pres_refl st
  | cons x xs ih => intro st; exact pres_trans (hg x st) (ih (g x st))

lemma setDep_pres (st : St) (t : Nat) (k : DKey) (d : DepRec) : Pres st (setDep st t k d) := by
  unfold setDep
  cases aGet st.targetMap t
  · exact pres_refl _
  · exact pres_simple

lemma pres_log (st : St) (l : List Ev) : Pres st { st with log := l } :=
  ⟨rfl, rfl, rfl, rfl, fun _ => effSame_refl _⟩

lemma initDepMarkers_pres (e : Nat) (st : St) : Pres st (initDepMarkers e st) := by
  unfold initDepMarkers
  refine pres_foldl (fun tk st => ?_) _ st
  cases depAt st tk.1 tk.2
  · exact pres_refl _
  · exact setDep_pres _ _ _ _

lemma cleanupEffect_pres (e : Nat) (st : St) : Pres st (cleanupEffect e st) := by
  unfold cleanupEffect
  refine pres_trans (pres_foldl (fun tk st => ?_) _ st)
    (pres_update_effect ⟨rfl, rfl, rfl, rfl, rfl, rfl⟩)
  cases depAt st tk.1 tk.2
  · exact pres_refl _
  · exact setDep_pres _ _ _ _

lemma finalizeDepMarkers_pres (e : Nat) (st : St) : Pres st (finalizeDepMarkers e st) := by
  unfold finalizeDepMarkers
  dsimp only
  refine pres_trans (b := _) ?_ (pres_update_effect ⟨rfl, rfl, rfl, rfl, rfl, rfl⟩)
  generalize (st.effects e).deps = ds
  suffices h : ∀ (acc : St × List (Nat × DKey)), Pres acc.1 (List.foldl _ acc ds).1 from h (st, [])
  induction ds with
  | nil => intro acc; exact pres_refl _
  | cons tk rest ih =>
    intro acc
    rw [List.foldl_cons]
    refine pres_trans ?_ (ih _)
    cases h : depAt acc.1 tk.1 tk.2
    · simp only [h]; exact pres_refl _
    · simp only [h]
      split <;> exact setDep_pres _ _ _ _

lemma stopEffect_pres (e : Nat) (st : St) : Pres st (stopEffect e st) := by
  obtain ⟨h1, h2, h3, h4, h5⟩ := cleanupEffect_pres e st
  unfold stopEffect
  split
  · exact pres_update_effect ⟨rfl, rfl, rfl, rfl, rfl, rfl⟩
  · split
    · dsimp only
      by_cases hOn : ((cleanupEffect e st).effects e).hasOnStop = true
      · simp only [if_pos hOn]
        refine ⟨h1, h2, h3, h4, fun x => ?_⟩
        by_cases hx : x = e
        · subst hx
          obtain ⟨p1, c1, r1, s1, o1, f1⟩ := h5 x
          simp [Function.update_apply, effSame, p1, c1, r1, s1, o1, f1]
        · simpa [Function.update_apply, hx] using h5 x
      · simp only [if_neg hOn]
        refine ⟨h1, h2, h3, h4, fun x => ?_⟩
        by_cases hx : x = e
        · subst hx
          obtain ⟨p1, c1, r1, s1, o1, f1⟩ := h5 x
          simp [Function.update_apply, effSame, p1, c1, r1, s1, o1, f1]
        · simpa [Function.update_apply, hx] using h5 x
    · exact pres_refl _

lemma trackEffects_pres (a t : Nat) (k : DKey) (m0 : List (DKey × DepRec)) (dep0 : DepRec)
    (st : St) : Pres st (trackEffects a t k m0 dep0 st) := by
  unfold trackEffects
  dsimp only
  split_ifs <;>
    (refine ⟨rfl, rfl, rfl, rfl, fun x => ?_⟩
     first
       | exact effSame_refl _
       | (rcases eq_or_ne x a with hx | hx <;>
            simp [Function.update_apply, hx, effSame, effSame_refl]))

lemma track_pres (t : Nat) (ty : TrackType) (k : DKey) (st : St) : Pres st (track t ty k st) := by
  unfold track
  split
  · exact pres_refl _
  · split
    · exact trackEffects_pres _ _ _ _ _ _
    · exact pres_refl _

lemma pauseTracking_pres (st : St) : Pres st (pauseTracking st) :=
  ⟨rfl, rfl, rfl, rfl, fun _ => effSame_refl _⟩

lemma enableTracking_pres (st : St) : Pres st (enableTracking st) :=
  ⟨rfl, rfl, rfl, rfl, fun _ => effSame_refl _⟩

lemma resetTracking_pres (st : St) : Pres st (resetTracking st) := by
  unfold resetTracking
  split <;> exact ⟨rfl, rfl, rfl, rfl, fun _ => effSame_refl _⟩

lemma scopePhase12_pres (s : Nat) (st : St) : Pres st (scopePhase12 s st) := by
  unfold scopePhase12
  dsimp only
  exact pres_trans
    (pres_foldl (fun e st => stopEffect_pres e st) ((st.scopes s).effects) st)
    (pres_foldl (fun c st => pres_log st _) _ _)

lemma scopeFinish_pres (s : Nat) (b : Bool) (st : St) : Pres st (scopeFinish s b st) := by
  unfold scopeFinish
  dsimp only
  repeat' split
  all_goals exact ⟨rfl, rfl, rfl, rfl, fun _ => effSame_refl _⟩

lemma stacked_of_pres {L : List Nat} {st st' : St} (hS : Stacked L st) (hP : Pres st st') :
    Stacked L st' := by
  obtain ⟨h1, h2, h3, h4⟩ := hS
  obtain ⟨e1, _, _, _, f1⟩ := hP
  exact ⟨e1.trans h1, h2, fun i h => ((f1 _).1).trans (h3 i h),
    fun x hx => ((f1 x).1).trans (h4 x hx)⟩

lemma trackBitInv_of_pres {st st' : St} (hP : Pres st st') (hB : trackBitInv st) :
    trackBitInv st' := by
  obtain ⟨_, d, t, _, _⟩ := hP
  unfold trackBitInv at *
  rw [t, d, hB]

lemma chainHas_false_not_mem :
    ∀ (L : List Nat) (f : Nat) (st : St),
      (∀ (i : Nat) (h : i < L.length), (st.effects (L.get ⟨i, h⟩)).parent = L[i + 1]?) →
      ∀ e, chainHas f st L.head? e = false → e ∉ L := by
  intro L
  induction L with
  | nil => intro f st _ e _; simp
  | cons a L ih =>
    intro f st hlink e hch
    match f with
    | 0 => simp [chainHas] at hch
    | g + 1 =>
      simp only [List.head?] at hch
      rw [chainHas] at hch
      by_cases hae : a = e
      · simp [hae] at hch
      · simp only [if_neg hae] at hch
        have hpar : (st.effects a).parent = L.head? := by
          have := hlink 0 (by simp)
          simpa [List.head?_eq_getElem?] using this
        rw [hpar] at hch
        have hlink' : ∀ (i : Nat) (h : i < L.length),
            (st.effects (L.get ⟨i, h⟩)).parent = L[i + 1]? := by
          intro i h
          have := hlink (i + 1) (by simpa using Nat.succ_lt_succ h)
          simpa using this
        have := ih g st hlink' e hch
        simp [hae, this, Ne.symm hae]

lemma stacked_runEnter {L : List Nat} {st : St} {e : Nat}
    (hS : Stacked L st) (heL : e ∉ L) : Stacked (e :: L) (runEnter e st) := by
  obtain ⟨h1, h2, h3, h4⟩ := hS
  refine ⟨rfl, List.nodup_cons.mpr ⟨heL, h2⟩, ?_, ?_⟩
  · intro i hi
    match i with
    | 0 =>
      simp [runEnter, Function.update_apply, h1, List.head?_eq_getElem?]
    | Nat.succ j =>
      have hj : j < L.length := by simpa using Nat.lt_of_succ_lt_succ hi
      have hx : L[j] ≠ e := fun hcontra => heL (hcontra ▸ List.getElem_mem hj)
      have := h3 j hj
      simp only [runEnter, List.get_cons_succ]
      simpa [Function.update_apply, hx] using this
  · intro x hx
    have hxe : x ≠ e := fun h => hx (h ▸ List.mem_cons_self _ _)
    have hxL : x ∉ L := fun h => hx (List.mem_cons_of_mem _ h)
    simp [runEnter, Function.update_apply, hxe]
    exact h4 x hxL

lemma trackBitInv_runEnter (e : Nat) (st : St) : trackBitInv (runEnter e st) := rfl

lemma runExitCore_pres_outer {st st3 : St} {L : List Nat} {e : Nat} {b : Bool}
    (hS : Stacked L st) (hB : trackBitInv st) (heL : e ∉ L)
    (hP : Pres (runEnter e st) st3) :
    Pres st (runExitCore e b st3) := by
  have hP34 : Pres st3 (if st3.depth ≤ maxMarkerBits then finalizeDepMarkers e st3 else st3) := by
    split
    · exact finalizeDepMarkers_pres e st3
    · exact pres_refl st3
  have hA : Pres (runEnter e st) (if st3.depth ≤ maxMarkerBits then finalizeDepMarkers e st3 else st3) :=
    pres_trans hP hP34
  unfold runExitCore
  dsimp only
  generalize hst4 : (if st3.depth ≤ maxMarkerBits then finalizeDepMarkers e st3 else st3) = st4 at hA
  obtain ⟨a1, a2, a3, a4, a5⟩ := hA
  obtain ⟨s1, s2, s3, s4⟩ := hS
  -- components of runEnter are definitional
  refine ⟨?_, ?_, ?_, ?_, ?_⟩
  · -- activeEffect: (st4.effects e).parent = st.activeEffect
    have := (a5 e).1
    simp [runEnter, Function.update_apply] at this
    simpa using this
  · -- depth
    simp [a2, runEnter]
  · -- trackOpBit
    have hd : st4.depth = st.depth + 1 := by simp [a2, runEnter]
    have hB' : st.trackOpBit = 1 <<< st.depth := hB
    rw [hd]
    simp [hB']
  · -- shape
    simp [a4, runEnter]
  · -- effects
    intro x
    by_cases hx : x = e
    · subst hx
      have he := a5 x
      have hpn : (st.effects x).parent = none := s4 x heL
      simp only [runEnter, Function.update_apply, if_pos rfl] at he
      obtain ⟨p1, c1, r1, sc1, o1, f1⟩ := he
      exact ⟨by simp [Function.update_apply, hpn],
        by simp [Function.update_apply, c1],
        by simp [Function.update_apply, r1],
        by simp [Function.update_apply, sc1],
        by simp [Function.update_apply, o1],
        by simp [Function.update_apply, f1]⟩
    · have he := a5 x
      simp only [runEnter, Function.update_apply, if_neg hx] at he
      obtain ⟨p1, c1, r1, sc1, o1, f1⟩ := he
      exact ⟨by simp [Function.update_apply, hx, p1],
        by simp [Function.update_apply, hx, c1],
        by simp [Function.update_apply, hx, r1],
        by simp [Function.update_apply, hx, sc1],
        by simp [Function.update_apply, hx, o1],
        by simp [Function.update_apply, hx, f1]⟩

lemma runExit_pres_outer {st st3 : St} {L : List Nat} {e : Nat} {b : Bool}
    (hS : Stacked L st) (hB : trackBitInv st) (heL : e ∉ L)
    (hP : Pres (runEnter e st) st3) :
    Pres st (runExit e b st3) := by
  unfold runExit
  dsimp only
  split
  · exact pres_trans (runExitCore_pres_outer hS hB heL hP) (stopEffect_pres _ _)
  · exact runExitCore_pres_outer hS hB heL hP

/-- Master preservation: on any state whose run stack is well formed
(`Stacked`) and whose depth bit is coherent, every task of the interpreter
preserves the active effect, the depth and its bit, the shapes, and every
effect's `parent` and static fields — even when user code throws. -/
lemma exec_pres : ∀ (f : Nat) (tk : ETask) (st : St) (L : List Nat),
    Stacked L st → trackBitInv st → Pres st (exec f tk st).1 := by
  intro f
  induction f with
  | zero =>
    intro tk st L _ _
    rw [exec]
    exact pres_refl st
  | succ f ih =>
    intro tk st L hS hB
    have go : ∀ (st' : St), Pres st st' → ∀ t', Pres st (exec f t' st').1 := fun st' hP t' =>
      pres_trans hP (ih t' st' L (stacked_of_pres hS hP) (trackBitInv_of_pres hP hB))
    match tk with
    | .cmds [] => rw [exec]; exact pres_refl st
    | .cmds (c :: cs) =>
      match c with
      | .track t ty k => rw [exec]; exact go _ (track_pres t ty k st) _
      | .pause => rw [exec]; exact go _ (pauseTracking_pres st) _
      | .enable => rw [exec]; exact go _ (enableTracking_pres st) _
      | .reset => rw [exec]; exact go _ (resetTracking_pres st) _
      | .logActive e => rw [exec]; exact go _ (pres_log st _) _
      | .stopEffect e => rw [exec]; exact go _ (stopEffect_pres e st) _
      | .throwErr => rw [exec]; exact pres_refl st
      | .runEffect e =>
        rw [exec]
        try dsimp only
        split
        · exact go st (pres_refl st) (.runE e)
        · exact go _ (go st (pres_refl st) (.runE e)) _
      | .scopeStop s =>
        rw [exec]
        try dsimp only
        exact go _ (go st (pres_refl st) (.scStop s false)) _
      | .trigger t ty k nv =>
        rw [exec]
        try dsimp only
        split
        · exact go st (pres_refl st) _
        · split
          · exact go st (pres_refl st) _
          · split
            · exact go st (pres_refl st) _
            · exact go _ (go st (pres_refl st) _) _
    | .runE e =>
      rw [exec]
      try dsimp only
      split
      · exact go st (pres_refl st) _
      · split
        · exact pres_refl st
        · rename_i hact hch
          have hch' : chainHas (f + 1) st st.activeEffect e = false := by
            simpa using hch
          obtain ⟨s1, s2, s3, s4⟩ := hS
          have heL : e ∉ L :=
            chainHas_false_not_mem L (f + 1) st s3 e (by rw [← s1]; exact hch')
          have hS1 : Stacked (e :: L) (runEnter e st) := stacked_runEnter ⟨s1, s2, s3, s4⟩ heL
          have hP12 : Pres (runEnter e st)
              (if (runEnter e st).depth ≤ maxMarkerBits then initDepMarkers e (runEnter e st)
               else cleanupEffect e (runEnter e st)) := by
            split
            · exact initDepMarkers_pres e _
            · exact cleanupEffect_pres e _
          have hS2 := stacked_of_pres hS1 hP12
          have hB2 := trackBitInv_of_pres hP12 (trackBitInv_runEnter e st)
          have hP23 := ih (.cmds (st.effects e).fn) _ (e :: L) hS2 hB2
          exact runExit_pres_outer ⟨s1, s2, s3, s4⟩ hB heL (pres_trans hP12 hP23)
    | .trigEffs ids =>
      rw [exec]
      try dsimp only
      split
      · exact go st (pres_refl st) (.trigList true ids)
      · exact go _ (go st (pres_refl st) (.trigList true ids)) (.trigList false ids)
    | .trigList ph [] => rw [exec]; exact pres_refl st
    | .trigList ph (e :: rest) =>
      rw [exec]
      try dsimp only
      split
      · split
        · exact go st (pres_refl st) (.trigEff e)
        · exact go _ (go st (pres_refl st) (.trigEff e)) _
      · exact go st (pres_refl st) _
    | .trigEff e =>
      rw [exec]
      try dsimp only
      split
      · split
        · exact pres_log st _
        · exact go st (pres_refl st) (.runE e)
      · exact pres_refl st
    | .scStop s fromParent =>
      rw [exec]
      try dsimp only
      split
      · exact pres_refl st
      · have h12 : Pres st (scopePhase12 s st) := scopePhase12_pres s st
        split
        · exact pres_trans h12 (scopeFinish_pres s fromParent _)
        · exact pres_trans (go _ h12 (.scKids _)) (scopeFinish_pres s fromParent _)
    | .scKids [] => rw [exec]; exact pres_refl st
    | .scKids (c :: cs) =>
      rw [exec]
      try dsimp only
      exact go _ (go st (pres_refl st) (.scStop c true)) (.scKids cs)

lemma track_noop_of_notrack : ∀ (f : Nat) (cs : List Cmd) (st : St),
    (∀ c ∈ cs, ∃ t ty k, c = Cmd.track t ty k) → st.shouldTrack = false →
    (exec f (.cmds cs) st).1 = st := by
  intro f
  induction f with
  | zero => intro cs st _ _; rw [exec]
  | succ f ih =>
    intro cs st hall hst
    match cs with
    | [] => rw [exec]
    | c :: rest =>
      obtain ⟨t, ty, k, rfl⟩ := hall c (List.mem_cons_self _ _)
      rw [exec]
      have htr : track t ty k st = st := by
        unfold track
        split
        · rfl
        · rw [if_neg (by simp [hst])]
      rw [htr]
      exact ih rest st (fun c hc => hall c (List.mem_cons_of_mem _ hc)) hst

/-- C10: a `resetTracking` call on an empty internal track stack sets
`shouldTrack` to `true`, whatever its previous value. -/
theorem resetTracking_empty_stack (st : St) (h : st.trackStack = []) :
    (resetTracking st).shouldTrack = true := by
  unfold resetTracking
  rw [h]

theorem resetTracking_empty_stack_witness :
    ({ shouldTrack := false } : St).trackStack = [] ∧
      (resetTracking ({ shouldTrack := false } : St)).shouldTrack = true :=
  ⟨rfl, resetTracking_empty_stack { shouldTrack := false } rfl⟩

/-- C8: a sequence of `track` calls bracketed by `pauseTracking` and the
matching `resetTracking` leaves the whole state — in particular the registry
`targetMap` and the `shouldTrack` flag — exactly as it was before
`pauseTracking`. -/
theorem pause_track_reset_id (f : Nat) (st : St) (cs : List Cmd)
    (hall : ∀ c ∈ cs, ∃ t ty k, c = Cmd.track t ty k) :
    resetTracking ((exec f (.cmds cs) (pauseTracking st)).1) = st := by
  rw [track_noop_of_notrack f cs (pauseTracking st) hall rfl]
  unfold resetTracking pauseTracking
  rfl

theorem pause_track_reset_id_witness :
    (∀ c ∈ [Cmd.track 0 .get (.str "a")], ∃ t ty k, c = Cmd.track t ty k) ∧
      resetTracking ((exec 5 (.cmds [Cmd.track 0 .get (.str "a")]) (pauseTracking {})).1)
        = ({} : St) := by
  have hall : ∀ c ∈ [Cmd.track 0 .get (.str "a")], ∃ t ty k, c = Cmd.track t ty k := by
    intro c hc
    rw [List.mem_singleton] at hc
    exact ⟨0, .get, .str "a", hc⟩
  exact ⟨hall, pause_track_reset_id 5 {} _ hall⟩

/-- C1 counterexample: a scope constructed with `detached = true` while
scope 0 is active still records `parent = scope 0` — the constructor assigns
`this.parent = activeEffectScope` unconditionally, so the claim's "parent is
undefined when detached" is false on the code. -/
theorem detached_scope_parent_is_set :
    ((newEffectScope 1 true exStC1).scopes 1).parent = some 0 := rfl

/-- C1 (amended): a scope constructed while scope `p` is active always gets
`parent = p`, detached or not; only the registration in `p`'s child list
(with the index recorded) is conditional on `detached = false`. -/
theorem effectScope_ctor_parent_and_registration (st : St) (sid : Nat) (d : Bool) (p : Nat)
    (hp : st.activeScope = some p) (hne : sid ≠ p) :
    ((newEffectScope sid d st).scopes sid).parent = some p ∧
    (d = true → (newEffectScope sid d st).scopes p = st.scopes p ∧
      ((newEffectScope sid d st).scopes sid).index = none) ∧
    (d = false → ((newEffectScope sid d st).scopes p).scopes =
        some ((st.scopes p).scopes.getD [] ++ [sid]) ∧
      ((newEffectScope sid d st).scopes sid).index =
        some ((st.scopes p).scopes.getD []).length) := by
  unfold newEffectScope
  rw [hp]
  cases d
  · simp [Function.update_apply, hne, Ne.symm hne]
  · simp [Function.update_apply, hne, Ne.symm hne]

theorem effectScope_ctor_witness :
    exStC1.activeScope = some 0 ∧ (1 : Nat) ≠ 0 ∧
    ((newEffectScope 1 false exStC1).scopes 0).scopes = some [1] ∧
    ((newEffectScope 1 false exStC1).scopes 1).index = some 0 := by
  refine ⟨rfl, by decide, ?_, ?_⟩
  · exact ((effectScope_ctor_parent_and_registration exStC1 1 false 0 rfl
      (by decide)).2.2 rfl).1
  · exact ((effectScope_ctor_parent_and_registration exStC1 1 false 0 rfl
      (by decide)).2.2 rfl).2

/-- C4 counterexample: on an array target with deps under "length", "1.5"
and "foo", a length trigger with newValue 1 selects the dep under the
non-integer key "1.5" (JS compares `"1.5" >= 1` numerically), contradicting
the claim that only integer keys at least Number(newValue) are selected. -/
theorem trigger_length_selects_noninteger_key :
    triggerDeps exMapC4 .array .set (some (.str "length")) 1
        = [some exDepL, some exDepX] ∧
      isIntegerKey (.str "1.5") = false ∧
      claimC4Sel (.str "1.5") 1 = false := by
  refine ⟨by decide, by decide, by decide⟩

lemma dropWhile_all_false {p : Char → Bool} (cs : List Char)
    (h : ∀ c ∈ cs, p c = false) : cs.dropWhile p = cs := by
  cases cs with
  | nil => rfl
  | cons c rest =>
    rw [List.dropWhile_cons]
    simp [h c (List.mem_cons_self _ _)]

lemma takeWhile_all_true {p : Char → Bool} :
    ∀ cs : List Char, cs.all p = true → cs.takeWhile p = cs := by
  intro cs
  induction cs with
  | nil => intro _; rfl
  | cons c rest ih =>
    intro h
    rw [List.all_cons, Bool.and_eq_true] at h
    rw [List.takeWhile_cons]
    simp [h.1, ih h.2]

lemma dropWhile_all_true {p : Char → Bool} :
    ∀ cs : List Char, cs.all p = true → cs.dropWhile p = [] := by
  intro cs
  induction cs with
  | nil => intro _; rfl
  | cons c rest ih =>
    intro h
    rw [List.all_cons, Bool.and_eq_true] at h
    rw [List.dropWhile_cons]
    simp [h.1, ih h.2]

lemma digit_not_ws {c : Char} (hd : c.isDigit = true) : isWSChar c = false := by
  cases hws : isWSChar c
  · rfl
  · exfalso
    unfold isWSChar at hws
    simp only [Bool.or_eq_true, decide_eq_true_eq] at hws
    rcases hws with ((((((h | h) | h) | h) | h) | h) | h) | h <;>
      (subst h; exact absurd hd (by decide))

lemma trimWS_digits (cs : List Char) (h : cs.all Char.isDigit = true) :
    trimWS cs = cs := by
  rw [List.all_eq_true] at h
  unfold trimWS
  rw [dropWhile_all_false cs (fun c hc => digit_not_ws (h c hc)),
    dropWhile_all_false cs.reverse
      (fun c hc => digit_not_ws (h c (List.mem_reverse.mp hc))),
    List.reverse_reverse]

lemma parseSigned_digits (cs : List Char) (hne : cs ≠ [])
    (h : cs.all Char.isDigit = true) :
    parseSigned cs = some (.fin (natOfDigits cs) 0) := by
  cases cs with
  | nil => exact absurd rfl hne
  | cons c0 rest =>
    have hd0 : c0.isDigit = true := by
      rw [List.all_eq_true] at h
      exact h c0 (List.mem_cons_self _ _)
    have h1 : splitSign (c0 :: rest) = (1, c0 :: rest) := by
      unfold splitSign
      dsimp only
      rw [if_neg (fun hc => absurd hd0 (by rw [hc]; decide)),
        if_neg (fun hc => absurd hd0 (by rw [hc]; decide))]
    have hInf : ¬ (c0 :: rest = "Infinity".data) := by
      intro he
      have h0 : c0 = 'I' := by
        have := congrArg List.headI he
        simpa using this
      rw [h0] at hd0
      exact absurd hd0 (by decide)
    unfold parseSigned
    rw [h1]
    dsimp only
    rw [if_neg hInf]
    unfold parseDec
    dsimp only
    rw [takeWhile_all_true _ h, dropWhile_all_true _ h]
    dsimp only
    rw [if_neg (by simp)]
    unfold parseExpPart decFin
    simp

lemma jsNum_digits (s : String) (hne : s.data ≠ [])
    (h : s.data.all Char.isDigit = true) :
    jsNum s = some (.fin (natOfDigits s.data) 0) := by
  unfold jsNum
  rw [trimWS_digits s.data h]
  cases hcs : s.data with
  | nil => exact absurd hcs hne
  | cons c0 rest0 =>
    rw [hcs] at h
    cases rest0 with
    | nil =>
      dsimp only
      exact parseSigned_digits [c0] (by simp) h
    | cons c1 rest =>
      have hd1 : c1.isDigit = true := by
        rw [List.all_eq_true] at h
        exact h c1 (List.mem_cons_of_mem _ (List.mem_cons_self _ _))
      dsimp only
      rw [if_neg (fun hc => by
          rcases hc.2 with hx | hx <;> (rw [hx] at hd1; exact absurd hd1 (by decide))),
        if_neg (fun hc => by
          rcases hc.2 with hx | hx <;> (rw [hx] at hd1; exact absurd hd1 (by decide))),
        if_neg (fun hc => by
          rcases hc.2 with hx | hx <;> (rw [hx] at hd1; exact absurd hd1 (by decide)))]
      exact parseSigned_digits _ (by simp) h

/-- C4 (amended): for a length trigger on an array target (any non-CLEAR
type) whose inner map carries string keys (what an array target's depsMap
holds — on a symbol key the JS comparison would throw), a dep is selected
iff its key is "length" or its key coerces under JavaScript `Number()`
(whitespace trimming, signs, decimal and exponent notation, `Infinity`,
hex/octal/binary literals) to a value at least `Number(newValue)` (`keyGE`);
every integer key behaves as the original claim says (`keyGE` coincides
with the numeric comparison on integer keys), but non-integer coercible
keys such as "1.5" or "1e3" are selected as well. -/
theorem trigger_length_selection (m : List (DKey × DepRec)) (n : Int) (ty : TrigType)
    (hty : ty ≠ .clear) (hkeys : ∀ kv ∈ m, ∃ s, kv.1 = DKey.str s) :
    (∀ d : DepRec, some d ∈ triggerDeps m .array ty (some (.str "length")) n ↔
       ∃ s, (DKey.str s, d) ∈ m ∧ (s = "length" ∨ keyGE (.str s) n = true)) ∧
    (∀ k, isIntegerKey k = true → (keyGE k n = true ↔ n ≤ (intKeyVal k : Int))) := by
  constructor
  · intro d
    unfold triggerDeps
    rw [if_neg hty, if_pos ⟨rfl, rfl⟩]
    simp only [List.mem_map, List.mem_filter]
    constructor
    · rintro ⟨⟨k, d'⟩, ⟨hkm, hcond⟩, hd⟩
      simp only [Option.some.injEq] at hd
      subst hd
      obtain ⟨s0, hs0⟩ := hkeys (k, d') hkm
      dsimp only at hs0
      subst hs0
      refine ⟨s0, hkm, ?_⟩
      simpa [Bool.or_eq_true, decide_eq_true_eq, DKey.str.injEq] using hcond
    · rintro ⟨s0, hkm, hcond⟩
      refine ⟨(.str s0, d), ⟨hkm, ?_⟩, rfl⟩
      simpa [Bool.or_eq_true, decide_eq_true_eq, DKey.str.injEq] using hcond
  · intro k hk
    match k with
    | .iterK => simp [isIntegerKey] at hk
    | .mapIterK => simp [isIntegerKey] at hk
    | .str s =>
      simp only [isIntegerKey, Bool.and_eq_true, decide_eq_true_eq] at hk
      have hj := jsNum_digits s hk.1.1 hk.1.2
      unfold keyGE
      dsimp only
      rw [hj]
      simp [jnumGE, intKeyVal]

/-- Witness for the amended C4 theorem: on the map with deps under
"length", "1e3" and " 2", both inner maps' keys are strings, the selection
iff is evaluated at the dep under "1e3", the exponent key "1e3" coerces to
1000 ≥ 5 while the padded key " 2" coerces to 2 < 5, and the integer-key
reading coincides with the original claim on key "2". -/
theorem trigger_length_selection_witness :
    TrigType.set ≠ TrigType.clear ∧
    (∀ kv ∈ exMapC4w, ∃ s, kv.1 = DKey.str s) ∧
    (some exDepX ∈ triggerDeps exMapC4w .array .set (some (.str "length")) 5 ↔
      ∃ s, (DKey.str s, exDepX) ∈ exMapC4w ∧ (s = "length" ∨ keyGE (.str s) 5 = true)) ∧
    keyGE (.str "1e3") 5 = true ∧
    keyGE (.str " 2") 5 = false ∧
    (isIntegerKey (.str "2") = true ∧
      (keyGE (.str "2") 1 = true ↔ (1 : Int) ≤ (intKeyVal (.str "2") : Int))) := by
  have hkeys : ∀ kv ∈ exMapC4w, ∃ s, kv.1 = DKey.str s := by
    intro kv hkv
    simp only [exMapC4w, List.mem_cons, List.not_mem_nil, or_false] at hkv
    rcases hkv with rfl | rfl | rfl
    · exact ⟨"length", rfl⟩
    · exact ⟨"1e3", rfl⟩
    · exact ⟨" 2", rfl⟩
  exact ⟨by decide, hkeys,
    (trigger_length_selection exMapC4w 5 .set (by decide) hkeys).1 exDepX,
    by decide, by decide, by decide,
    (trigger_length_selection exMapC4w 1 .set (by decide) hkeys).2 (.str "2") (by decide)⟩

lemma aGet_aSet_self {α : Type} [DecidableEq α] {β : Type} (m : List (α × β)) (k : α) (v : β) :
    aGet (aSet m k v) k = some v := by
  induction m with
  | nil => simp [aGet, aSet]
  | cons kv rest ih =>
    by_cases h : kv.1 = k
    · simp [aSet, aGet, h]
    · simp [aSet, aGet, h, ih]

lemma aGet_aSet_ne {α : Type} [DecidableEq α] {β : Type} (m : List (α × β)) (k k' : α) (v : β)
    (h : k' ≠ k) : aGet (aSet m k v) k' = aGet m k' := by
  induction m with
  | nil => simp [aGet, aSet, h, Ne.symm h]
  | cons kv rest ih =>
    by_cases hk : kv.1 = k
    · subst hk
      simp [aSet, aGet, Ne.symm h]
    · simp only [aSet, if_neg hk]
      by_cases hk' : kv.1 = k'
      · simp [aGet, hk']
      · simp [aGet, hk', ih]

lemma depAt_setDep_other (st : St) (t : Nat) (k : DKey) (d : DepRec) (t' : Nat) (k' : DKey)
    (h : ¬ (t' = t ∧ k' = k)) : depAt (setDep st t k d) t' k' = depAt st t' k' := by
  unfold setDep depAt
  cases hm : aGet st.targetMap t with
  | none => rfl
  | some m =>
    by_cases ht : t' = t
    · subst ht
      have hk : k' ≠ k := fun hk => h ⟨rfl, hk⟩
      simp [aGet_aSet_self, hm, aGet_aSet_ne _ _ _ _ hk]
    · simp [aGet_aSet_ne _ _ _ _ ht]

lemma depAt_setDep_self (st : St) (t : Nat) (k : DKey) (d : DepRec) {m : List (DKey × DepRec)}
    (hm : aGet st.targetMap t = some m) : depAt (setDep st t k d) t k = some d := by
  unfold setDep depAt
  rw [hm]
  simp [aGet_aSet_self]

lemma depAt_some_targetMap {st : St} {t : Nat} {k : DKey} {d : DepRec}
    (h : depAt st t k = some d) : ∃ m, aGet st.targetMap t = some m := by
  unfold depAt at h
  cases hm : aGet st.targetMap t with
  | none => rw [hm] at h; exact absurd h (by simp)
  | some m => exact ⟨m, rfl⟩

lemma cleanup_step_clean {e : Nat} (st : St) (tk tk' : Nat × DKey)
    (h : ∀ d, depAt st tk.1 tk.2 = some d → e ∉ d.effects) :
    ∀ d, depAt ((fun acc (tk : Nat × DKey) =>
        match depAt acc tk.1 tk.2 with
        | none => acc
        | some dep => setDep acc tk.1 tk.2 { dep with effects := delSet dep.effects e })
        st tk') tk.1 tk.2 = some d → e ∉ d.effects := by
  intro d hd
  cases hdep : depAt st tk'.1 tk'.2 with
  | none =>
    simp only [hdep] at hd
    exact h d hd
  | some dep =>
    simp only [hdep] at hd
    by_cases hsame : tk.1 = tk'.1 ∧ tk.2 = tk'.2
    · obtain ⟨m, hm⟩ := depAt_some_targetMap hdep
      rw [hsame.1, hsame.2, depAt_setDep_self st tk'.1 tk'.2 _ hm] at hd
      cases hd
      simp [delSet]
    · rw [depAt_setDep_other st tk'.1 tk'.2 _ tk.1 tk.2 hsame] at hd
      exact h d hd

lemma cleanup_fold_clean {e : Nat} :
    ∀ (ds : List (Nat × DKey)) (st : St) (tk : Nat × DKey),
      (tk ∈ ds ∨ (∀ d, depAt st tk.1 tk.2 = some d → e ∉ d.effects)) →
      ∀ d, depAt (ds.foldl (fun acc (tk : Nat × DKey) =>
          match depAt acc tk.1 tk.2 with
          | none => acc
          | some dep => setDep acc tk.1 tk.2 { dep with effects := delSet dep.effects e })
        st) tk.1 tk.2 = some d → e ∉ d.effects := by
  intro ds
  induction ds with
  | nil =>
    intro st tk h d hd
    rcases h with h | h
    · exact absurd h (List.not_mem_nil tk)
    · exact h d hd
  | cons tk' rest ih =>
    intro st tk h d hd
    rw [List.foldl_cons] at hd
    rcases h with h | h
    · rcases List.mem_cons.mp h with h | h
      · subst h
        refine ih _ tk (Or.inr ?_) d hd
        intro d' hd'
        cases hdep : depAt st tk.1 tk.2 with
        | none =>
          simp only [hdep] at hd'
          exact Option.noConfusion hd' 
        | some dep =>
          simp only [hdep] at hd'
          obtain ⟨m, hm⟩ := depAt_some_targetMap hdep
          rw [depAt_setDep_self st tk.1 tk.2 _ hm] at hd'
          cases hd'
          simp [delSet]
      · exact ih _ tk (Or.inl h) d hd
    · exact ih _ tk (Or.inr (cleanup_step_clean st tk tk' h)) d hd

lemma cleanupEffect_removes (e : Nat) (st : St) :
    ∀ tk ∈ (st.effects e).deps, ∀ d,
      depAt (cleanupEffect e st) tk.1 tk.2 = some d → e ∉ d.effects := by
  intro tk htk d hd
  unfold cleanupEffect at hd
  exact cleanup_fold_clean (st.effects e).deps st tk (Or.inl htk) d hd

/-- C3 counterexample: effect 1 runs effect 2 nested; when effect 2's fn
calls stop() on effect 1 — the outer, still-running effect of the chain —
disposal happens immediately (the `effStop` disposal marker precedes effect
2's observation of `active = false`, both inside the run), and `deferStop`
is never used; the claim's "defers disposal until that run exits" is false
for an outer effect of a nested chain. -/
theorem stop_outer_running_effect_immediate :
    (exec 10 (.cmds [.runEffect 1]) exStC3).1.log
        = [Ev.effStop 1, Ev.activeFlag 1 false] ∧
      ((exec 10 (.cmds [.runEffect 1]) exStC3).1.effects 1).deferStop = false := by
  exact ⟨by decide, by decide⟩

lemma cleanupEffect_effects_log (e : Nat) (st : St) :
    (cleanupEffect e st).effects
        = Function.update st.effects e { st.effects e with deps := [] } ∧
      (cleanupEffect e st).log = st.log := by
  unfold cleanupEffect
  dsimp only
  have hfold : ((st.effects e).deps.foldl (fun acc (tk : Nat × DKey) =>
      match depAt acc tk.1 tk.2 with
      | none => acc
      | some dep => setDep acc tk.1 tk.2 { dep with effects := delSet dep.effects e })
    st).effects = st.effects ∧
    ((st.effects e).deps.foldl (fun acc (tk : Nat × DKey) =>
      match depAt acc tk.1 tk.2 with
      | none => acc
      | some dep => setDep acc tk.1 tk.2 { dep with effects := delSet dep.effects e })
    st).log = st.log := by
    generalize (st.effects e).deps = ds
    induction ds generalizing st with
    | nil => exact ⟨rfl, rfl⟩
    | cons tk rest ih =>
      rw [List.foldl_cons]
      cases hdep : depAt st tk.1 tk.2 with
      | none => simp only [hdep]; exact ih st
      | some dep =>
        simp only [hdep]
        have hset : (setDep st tk.1 tk.2 { dep with effects := delSet dep.effects e }).effects
              = st.effects ∧
            (setDep st tk.1 tk.2 { dep with effects := delSet dep.effects e }).log = st.log := by
          unfold setDep
          cases aGet st.targetMap tk.1 <;> exact ⟨rfl, rfl⟩
        obtain ⟨h1, h2⟩ := ih (setDep st tk.1 tk.2 { dep with effects := delSet dep.effects e })
        rw [h1, h2, hset.1, hset.2]
        exact ⟨rfl, rfl⟩
  rw [hfold.1, hfold.2]
  constructor
  · funext x
    by_cases hx : x = e <;> simp [Function.update_apply, hx]
  · rfl

/-- C3 (amended): stop() defers only when called on the effect that is
currently the active (innermost running) one — then it merely sets
`deferStop`; on any other effect that is still active (an idle one, or an
outer effect of a nested chain) it immediately removes the effect from every
Dep in its deps list, clears the list, invokes `onStop` when present, and
sets `active` to false. -/
theorem stopEffect_defer_or_dispose (st : St) (e : Nat) :
    (st.activeEffect = some e →
      stopEffect e st
        = { st with effects :=
              Function.update st.effects e { st.effects e with deferStop := true } }) ∧
    (st.activeEffect ≠ some e → (st.effects e).active = true →
      (∀ tk ∈ (st.effects e).deps, ∀ d,
          depAt (stopEffect e st) tk.1 tk.2 = some d → e ∉ d.effects) ∧
      ((stopEffect e st).effects e).deps = [] ∧
      ((stopEffect e st).effects e).active = false ∧
      ((st.effects e).hasOnStop = true →
        (stopEffect e st).log = st.log ++ [Ev.effStop e, Ev.onStopEv e]) ∧
      ((st.effects e).hasOnStop = false →
        (stopEffect e st).log = st.log ++ [Ev.effStop e])) := by
  obtain ⟨hE, hL⟩ := cleanupEffect_effects_log e st
  constructor
  · intro ha
    unfold stopEffect
    rw [if_pos ha]
  · intro ha hact
    have hbody : stopEffect e st =
        (let st1 := cleanupEffect e st
        let st2 : St := { st1 with log := st1.log ++ [Ev.effStop e] }
        let st3 : St :=
          if (st2.effects e).hasOnStop = true then { st2 with log := st2.log ++ [Ev.onStopEv e] }
          else st2
        { st3 with effects :=
            Function.update st3.effects e ({ st3.effects e with active := false }) }) := by
      unfold stopEffect
      rw [if_neg ha, if_pos hact]
    rw [hbody]
    dsimp only
    have hOnEq : ((cleanupEffect e st).effects e).hasOnStop = (st.effects e).hasOnStop := by
      rw [hE]; simp [Function.update_apply]
    by_cases hOn : (st.effects e).hasOnStop = true
    · rw [if_pos (by rw [hOnEq]; exact hOn)]
      refine ⟨?_, ?_, ?_, ?_, ?_⟩
      · intro tk htk d hd
        refine cleanupEffect_removes e st tk htk d ?_
        simpa [depAt] using hd
      · simp [Function.update_apply, hE]
      · simp [Function.update_apply]
      · intro _
        simp [hL]
      · intro hcontra
        simp [hOn] at hcontra
    · rw [if_neg (by rw [hOnEq]; exact hOn)]
      refine ⟨?_, ?_, ?_, ?_, ?_⟩
      · intro tk htk d hd
        refine cleanupEffect_removes e st tk htk d ?_
        simpa [depAt] using hd
      · simp [Function.update_apply, hE]
      · simp [Function.update_apply]
      · intro hcontra
        exact absurd hcontra hOn
      · intro _
        simp [hL]

theorem stopEffect_defer_or_dispose_witness :
    (exStC6w.activeEffect = some 1 ∧
      stopEffect 1 exStC6w
        = { exStC6w with effects :=
              Function.update exStC6w.effects 1 { exStC6w.effects 1 with deferStop := true } }) ∧
    (exStC3w.activeEffect ≠ some 2 ∧ (exStC3w.effects 2).active = true ∧
      ((stopEffect 2 exStC3w).effects 2).deps = [] ∧
      ((stopEffect 2 exStC3w).effects 2).active = false ∧
      (stopEffect 2 exStC3w).log = [Ev.effStop 2, Ev.onStopEv 2]) := by
  refine ⟨⟨rfl, (stopEffect_defer_or_dispose exStC6w 1).1 rfl⟩, ?_, ?_, ?_, ?_, ?_⟩
  · decide
  · decide
  · exact ((stopEffect_defer_or_dispose exStC3w 2).2 (by decide) (by decide)).2.1
  · exact ((stopEffect_defer_or_dispose exStC3w 2).2 (by decide) (by decide)).2.2.1
  · have := ((stopEffect_defer_or_dispose exStC3w 2).2 (by decide) (by decide)).2.2.2.1 (by decide)
    simpa using this

lemma notifies_congr {st st' : St} (hP : Pres st st') (e : Nat) :
    notifies st' e = notifies st e := by
  obtain ⟨h1, _, _, _, h5⟩ := hP
  unfold notifies
  rw [h1, (h5 e).2.2.1]

lemma computed_congr {st st' : St} (hP : Pres st st') (e : Nat) :
    (st'.effects e).computed = (st.effects e).computed := by
  exact (hP.2.2.2.2 e).2.1

lemma trigEff_third (f : Nat) (st : St) (e : Nat)
    (hok : (exec f (.trigEff e) st).2.1 = false) :
    (exec f (.trigEff e) st).2.2 = if notifies st e = true then [e] else [] := by
  match f with
  | 0 => rw [exec] at hok; exact absurd hok (by simp)
  | g + 1 =>
    rw [exec]
    rw [exec] at hok
    by_cases hg : st.activeEffect ≠ some e ∨ (st.effects e).allowRecurse = true
    · rw [if_pos hg] at hok ⊢
      have hn : notifies st e = true := by
        simp only [notifies, Bool.or_eq_true, decide_eq_true_eq]
        exact hg
      rw [if_pos hn]
      dsimp only
      split <;> rfl
    · rw [if_neg hg] at hok ⊢
      have hn : ¬ notifies st e = true := by
        simp only [notifies, Bool.or_eq_true, decide_eq_true_eq]
        exact hg
      rw [if_neg hn]

lemma trigList_thirds : ∀ (f : Nat) (ph : Bool) (ids : List Nat) (st : St) (L : List Nat),
    Stacked L st → trackBitInv st →
    (exec f (.trigList ph ids) st).2.1 = false →
    (exec f (.trigList ph ids) st).2.2
      = ids.filter (fun e => decide ((st.effects e).computed = ph) && notifies st e) := by
  intro f
  induction f with
  | zero =>
    intro ph ids st L _ _ hok
    rw [exec] at hok
    exact absurd hok (by simp)
  | succ f ih =>
    intro ph ids st L hS hB hok
    match ids with
    | [] => rw [exec]; simp
    | e :: rest =>
      rw [exec] at hok ⊢
      by_cases hph : (st.effects e).computed = ph
      · rw [if_pos hph] at hok ⊢
        dsimp only at hok ⊢
        by_cases hexn : (exec f (.trigEff e) st).2.1 = true
        · rw [if_pos hexn] at hok
          exact absurd hok (by simp [hexn])
        · rw [if_neg hexn] at hok ⊢
          dsimp only at hok ⊢
          have hP : Pres st (exec f (.trigEff e) st).1 := exec_pres f _ st L hS hB
          have hok2 : (exec f (.trigList ph rest) (exec f (.trigEff e) st).1).2.1 = false := hok
          have hrest := ih ph rest (exec f (.trigEff e) st).1 L
            (stacked_of_pres hS hP) (trackBitInv_of_pres hP hB) hok2
          rw [hrest, trigEff_third f st e (by simpa using hexn)]
          have hn : notifies st e = true ∨ notifies st e = false := by
            cases notifies st e <;> simp
          have hfilter : (rest.filter (fun x =>
              decide (((exec f (.trigEff e) st).1.effects x).computed = ph)
                && notifies (exec f (.trigEff e) st).1 x))
              = rest.filter (fun x => decide ((st.effects x).computed = ph) && notifies st x) := by
            refine List.filter_congr ?_
            intro x _
            rw [notifies_congr hP x, computed_congr hP x]
          rw [hfilter]
          rcases hn with hn | hn
          · rw [if_pos hn]
            simp [List.filter_cons, hph, hn]
          · rw [if_neg (by simp [hn])]
            simp [List.filter_cons, hn]
      · rw [if_neg hph] at hok ⊢
        have := ih ph rest st L hS hB hok
        rw [this]
        simp [List.filter_cons, hph]

lemma trigEffs_thirds (f : Nat) (ids : List Nat) (st : St) (L : List Nat)
    (hS : Stacked L st) (hB : trackBitInv st)
    (hok : (exec f (.trigEffs ids) st).2.1 = false) :
    (exec f (.trigEffs ids) st).2.2
      = ids.filter (fun e => (st.effects e).computed && notifies st e)
        ++ ids.filter (fun e => !(st.effects e).computed && notifies st e) := by
  match f with
  | 0 => rw [exec] at hok; exact absurd hok (by simp)
  | g + 1 =>
    rw [exec] at hok ⊢
    by_cases hexn : (exec g (.trigList true ids) st).2.1 = true
    · rw [if_pos hexn] at hok
      exact absurd hok (by simp)
    · rw [if_neg hexn] at hok ⊢
      dsimp only at hok ⊢
      have hP : Pres st (exec g (.trigList true ids) st).1 := exec_pres g _ st L hS hB
      have h1 := trigList_thirds g true ids st L hS hB (by simpa using hexn)
      have h2 := trigList_thirds g false ids (exec g (.trigList true ids) st).1 L
        (stacked_of_pres hS hP) (trackBitInv_of_pres hP hB) hok
      rw [h1, h2]
      congr 1
      · refine List.filter_congr ?_
        intro x _
        simp
      · refine List.filter_congr ?_
        intro x _
        rw [notifies_congr hP x, computed_congr hP x]
        simp

/-- C5: on a well-formed state, a `triggerEffects` call over a snapshot list
that completes normally invokes (runs or schedules) exactly the guarded
effects, all computed ones first and then all non-computed ones, each class
in the order of the input list. -/
theorem triggerEffects_computed_first (f : Nat) (ids : List Nat) (st : St) (L : List Nat)
    (hS : Stacked L st) (hB : trackBitInv st)
    (hok : (exec f (.trigEffs ids) st).2.1 = false) :
    (exec f (.trigEffs ids) st).2.2
      = ids.filter (fun e => (st.effects e).computed && notifies st e)
        ++ ids.filter (fun e => !(st.effects e).computed && notifies st e) :=
  trigEffs_thirds f ids st L hS hB hok

lemma stacked_nil_of {st : St} (h1 : st.activeEffect = none)
    (h2 : ∀ x, (st.effects x).parent = none) : Stacked [] st :=
  ⟨h1, List.nodup_nil, fun i h => absurd h (by simp), fun x _ => h2 x⟩

theorem triggerEffects_computed_first_witness :
    Stacked [] exStC5w ∧ trackBitInv exStC5w ∧
    (exec 10 (.trigEffs [1, 2, 3]) exStC5w).2.1 = false ∧
    (exec 10 (.trigEffs [1, 2, 3]) exStC5w).2.2 = [2, 1, 3] := by
  have hS : Stacked [] exStC5w := by
    refine stacked_nil_of rfl ?_
    intro x
    simp only [exStC5w]
    split_ifs <;> rfl
  refine ⟨hS, rfl, by decide, ?_⟩
  rw [triggerEffects_computed_first 10 [1, 2, 3] exStC5w [] hS rfl (by decide)]
  decide

/-- C6: a trigger selection containing the currently running effect does not
run it or hand it to its scheduler when `allowRecurse` is unset —
`triggerEffect` leaves the state untouched for it — while every other
effect of the selection is still notified. -/
theorem trigger_skips_running_effect (f : Nat) (st : St) (a : Nat) (ids : List Nat)
    (L : List Nat) (hS : Stacked L st) (hB : trackBitInv st)
    (ha : st.activeEffect = some a) (har : (st.effects a).allowRecurse = false) :
    (0 < f → exec f (.trigEff a) st = (st, false, [])) ∧
    ((exec f (.trigEffs ids) st).2.1 = false →
      ∀ e ∈ ids, e ≠ a → e ∈ (exec f (.trigEffs ids) st).2.2) := by
  constructor
  · intro hf
    match f, hf with
    | g + 1, _ =>
      rw [exec]
      rw [if_neg ?_]
      intro hcontra
      rcases hcontra with h | h
      · exact h ha
      · rw [har] at h
        exact absurd h (by simp)
  · intro hok e he hne
    rw [trigEffs_thirds f ids st L hS hB hok]
    have hn : notifies st e = true := by
      simp only [notifies, Bool.or_eq_true, decide_eq_true_eq]
      left
      rw [ha]
      simp [Ne.symm hne]
    rcases hc : (st.effects e).computed with _ | _
    · refine List.mem_append_right _ ?_
      exact List.mem_filter.mpr ⟨he, by simp [hc, hn]⟩
    · refine List.mem_append_left _ ?_
      exact List.mem_filter.mpr ⟨he, by simp [hc, hn]⟩

theorem trigger_skips_running_effect_witness :
    Stacked [1] exStC6w ∧ trackBitInv exStC6w ∧
    exStC6w.activeEffect = some 1 ∧ (exStC6w.effects 1).allowRecurse = false ∧
    exec 5 (.trigEff 1) exStC6w = (exStC6w, false, []) ∧
    ((exec 5 (.trigEffs [1, 2]) exStC6w).2.1 = false ∧
      2 ∈ (exec 5 (.trigEffs [1, 2]) exStC6w).2.2) := by
  have hS : Stacked [1] exStC6w := by
    refine ⟨rfl, by simp, ?_, ?_⟩
    · intro i h
      match i, h with
      | 0, _ => rfl
    · intro x hx
      have : x ≠ 1 := by simpa using hx
      simp only [exStC6w]
      split_ifs with h1 h2 <;> first | (exact absurd h1 this) | rfl
  have h1 := (trigger_skips_running_effect 5 exStC6w 1 [1, 2] [1] hS rfl rfl rfl).1 (by decide)
  have h2 := (trigger_skips_running_effect 5 exStC6w 1 [1, 2] [1] hS rfl rfl rfl).2
    (by decide) 2 (by decide) (by decide)
  exact ⟨hS, rfl, rfl, rfl, h1, by decide, h2⟩

lemma depsClean_setDep {e : Nat} (st : St) (t : Nat) (k : DKey) (d : DepRec)
    (h : depsClean e st) (hd : e ∉ d.effects) : depsClean e (setDep st t k d) := by
  intro t' k' d' hd'
  by_cases hsame : t' = t ∧ k' = k
  · cases hm : aGet st.targetMap t with
    | none =>
      unfold setDep at hd'
      rw [hm] at hd'
      exact h _ _ _ hd'
    | some m =>
      rw [hsame.1, hsame.2, depAt_setDep_self st t k d hm] at hd'
      cases hd'
      exact hd
  · rw [depAt_setDep_other st t k d t' k' hsame] at hd'
    exact h _ _ _ hd'

lemma depsClean_foldl {e : Nat} {α : Type} {g : α → St → St}
    (hg : ∀ x st, depsClean e st → depsClean e (g x st)) :
    ∀ (l : List α) (st : St), depsClean e st →
      depsClean e (l.foldl (fun acc x => g x acc) st) := by
  intro l
  induction l with
  | nil => intro st h; exact h
  | cons x xs ih => intro st h; exact ih (g x st) (hg x st h)

lemma depsClean_initDepMarkers {e x : Nat} (st : St) (h : depsClean e st) :
    depsClean e (initDepMarkers x st) := by
  unfold initDepMarkers
  refine depsClean_foldl (fun tk st h => ?_) _ st h
  cases hdep : depAt st tk.1 tk.2 with
  | none => exact h
  | some d =>
    have hd : e ∉ d.effects := h _ _ _ hdep
    exact depsClean_setDep st tk.1 tk.2 _ h hd

lemma depsClean_cleanupEffect {e x : Nat} (st : St) (h : depsClean e st) :
    depsClean e (cleanupEffect x st) := by
  unfold cleanupEffect
  have hfold : depsClean e ((st.effects x).deps.foldl (fun acc (tk : Nat × DKey) =>
      match depAt acc tk.1 tk.2 with
      | none => acc
      | some dep => setDep acc tk.1 tk.2 { dep with effects := delSet dep.effects x }) st) := by
    refine depsClean_foldl (fun tk st h => ?_) _ st h
    cases hdep : depAt st tk.1 tk.2 with
    | none => exact h
    | some d =>
      refine depsClean_setDep st tk.1 tk.2 _ h ?_
      intro hmem
      exact h _ _ _ hdep (by simpa [delSet] using (List.mem_filter.mp hmem).1)
  intro t k d hd
  exact hfold t k d hd

lemma depsClean_finalizeDepMarkers {e x : Nat} (st : St) (h : depsClean e st) :
    depsClean e (finalizeDepMarkers x st) := by
  unfold finalizeDepMarkers
  dsimp only
  have hfold : ∀ (ds : List (Nat × DKey)) (acc : St × List (Nat × DKey)), depsClean e acc.1 →
      depsClean e ((ds.foldl (fun (acc : St × List (Nat × DKey)) (tk : Nat × DKey) =>
        match depAt acc.1 tk.1 tk.2 with
        | none => (acc.1, acc.2 ++ [tk])
        | some d =>
          if wasTrackedB d acc.1.trackOpBit ∧ ¬ newTrackedB d acc.1.trackOpBit then
            (setDep acc.1 tk.1 tk.2
              { effects := delSet d.effects x,
                w := clearBit d.w acc.1.trackOpBit, n := clearBit d.n acc.1.trackOpBit },
             acc.2)
          else
            (setDep acc.1 tk.1 tk.2
              { d with w := clearBit d.w acc.1.trackOpBit, n := clearBit d.n acc.1.trackOpBit },
             acc.2 ++ [tk])) acc)).1 := by
    intro ds
    induction ds with
    | nil => intro acc h; exact h
    | cons tk rest ih =>
      intro acc h
      rw [List.foldl_cons]
      refine ih _ ?_
      cases hdep : depAt acc.1 tk.1 tk.2 with
      | none => simp only [hdep]; exact h
      | some d =>
        simp only [hdep]
        split
        · refine depsClean_setDep acc.1 tk.1 tk.2 _ h ?_
          intro hmem
          exact h _ _ _ hdep (by simpa [delSet] using (List.mem_filter.mp hmem).1)
        · have hd : e ∉ d.effects := h _ _ _ hdep
          exact depsClean_setDep acc.1 tk.1 tk.2 _ h hd
  intro t k d hd
  exact hfold _ (st, []) h t k d hd

lemma not_mem_addSet {e a : Nat} {l : List Nat} (h1 : e ∉ l) (h2 : a ≠ e) :
    e ∉ addSet l a := by
  unfold addSet
  split
  · exact h1
  · intro hc
    rcases List.mem_append.mp hc with hc | hc
    · exact h1 hc
    · have : e = a := by simpa using hc
      exact h2 this.symm

lemma depsClean_trackEffects {e : Nat} (a t : Nat) (k : DKey) (m0 : List (DKey × DepRec))
    (dep0 : DepRec) (st : St) (h : depsClean e st) (hane : a ≠ e)
    (hm0 : ∀ k' d', aGet m0 k' = some d' → e ∉ d'.effects)
    (hdep0 : e ∉ dep0.effects) : depsClean e (trackEffects a t k m0 dep0 st) := by
  have key : ∀ (dep2 : DepRec), e ∉ dep2.effects → ∀ (stx : St),
      stx.targetMap = aSet st.targetMap t (aSet m0 k dep2) → depsClean e stx := by
    intro dep2 hd2 stx hstx t' k' d' hd'
    unfold depAt at hd'
    rw [hstx] at hd'
    by_cases ht : t' = t
    · subst ht
      simp only [aGet_aSet_self] at hd'
      by_cases hk : k' = k
      · subst hk
        rw [aGet_aSet_self] at hd'
        cases hd'
        exact hd2
      · rw [aGet_aSet_ne _ _ _ _ hk] at hd'
        exact hm0 k' d' hd'
    · rw [aGet_aSet_ne _ _ _ _ ht] at hd'
      refine h t' k' d' ?_
      unfold depAt
      exact hd'
  unfold trackEffects
  dsimp only
  split_ifs <;>
    (refine key _ ?_ _ rfl
     first
       | exact not_mem_addSet hdep0 hane
       | exact hdep0)

lemma depsClean_track {e : Nat} (t : Nat) (ty : TrackType) (k : DKey) (st : St)
    (h : depsClean e st) (ha : st.activeEffect ≠ some e) :
    depsClean e (track t ty k st) := by
  unfold track
  split
  · exact h
  · rename_i x a hae
    have hane : a ≠ e := fun hc => ha (by rw [hae, hc])
    split
    · try dsimp only
      refine depsClean_trackEffects a t k _ _ st h hane ?_ ?_
      · intro k' d' hk'
        cases hm : aGet st.targetMap t with
        | none =>
          rw [hm] at hk'
          simp [aGet] at hk'
        | some m =>
          rw [hm] at hk'
          dsimp only at hk'
          refine h t k' d' ?_
          unfold depAt
          rw [hm]
          exact hk'
      · cases hm : aGet st.targetMap t with
        | none => simp [aGet, createDep]
        | some m =>
          dsimp only
          cases hk : aGet m k with
          | none => simp [createDep]
          | some d =>
            refine h t k d ?_
            unfold depAt
            rw [hm]
            dsimp only
            exact hk
    · exact h

lemma depsClean_of_targetMap_eq {e : Nat} {st st' : St} (hT : st'.targetMap = st.targetMap)
    (h : depsClean e st) : depsClean e st' := by
  intro t k d hd
  refine h t k d ?_
  unfold depAt at hd ⊢
  rw [hT] at hd
  exact hd

lemma trackEffects_active (a t : Nat) (k : DKey) (m0 : List (DKey × DepRec)) (dep0 : DepRec)
    (st : St) (x : Nat) :
    ((trackEffects a t k m0 dep0 st).effects x).active = (st.effects x).active := by
  unfold trackEffects
  dsimp only
  split_ifs <;>
    (rcases eq_or_ne x a with hx | hx <;> simp [Function.update_apply, hx])

lemma track_active (t : Nat) (ty : TrackType) (k : DKey) (st : St) (x : Nat) :
    ((track t ty k st).effects x).active = (st.effects x).active := by
  unfold track
  split
  · rfl
  · split
    · exact trackEffects_active _ _ _ _ _ _ _
    · rfl

lemma stopEffect_targetMap (x : Nat) (st : St) :
    (stopEffect x st).targetMap = st.targetMap ∨
      (stopEffect x st).targetMap = (cleanupEffect x st).targetMap := by
  unfold stopEffect
  split
  · left; rfl
  · split
    · right
      dsimp only
      split <;> rfl
    · left; rfl

lemma depsClean_stopEffect {e : Nat} (x : Nat) (st : St) (h : depsClean e st) :
    depsClean e (stopEffect x st) := by
  rcases stopEffect_targetMap x st with hT | hT
  · exact depsClean_of_targetMap_eq hT h
  · exact depsClean_of_targetMap_eq hT (depsClean_cleanupEffect st h)

lemma stopEffect_active_other {x e : Nat} (hne : e ≠ x) (st : St) :
    ((stopEffect x st).effects e).active = (st.effects e).active := by
  obtain ⟨hE, _⟩ := cleanupEffect_effects_log x st
  unfold stopEffect
  split
  · simp [Function.update_apply, hne]
  · split
    · dsimp only
      split <;> simp [Function.update_apply, hne, hE]
    · rfl

lemma finalizeDepMarkers_frame (x : Nat) (st : St) (y : Nat) :
    ((finalizeDepMarkers x st).effects y).active = (st.effects y).active ∧
    ((finalizeDepMarkers x st).effects y).parent = (st.effects y).parent ∧
    ((finalizeDepMarkers x st).effects y).deferStop = (st.effects y).deferStop ∧
    (finalizeDepMarkers x st).log = st.log := by
  unfold finalizeDepMarkers
  dsimp only
  have hfold : ∀ (ds : List (Nat × DKey)) (acc : St × List (Nat × DKey)),
      ((ds.foldl (fun (acc : St × List (Nat × DKey)) (tk : Nat × DKey) =>
        match depAt acc.1 tk.1 tk.2 with
        | none => (acc.1, acc.2 ++ [tk])
        | some d =>
          if wasTrackedB d acc.1.trackOpBit ∧ ¬ newTrackedB d acc.1.trackOpBit then
            (setDep acc.1 tk.1 tk.2
              { effects := delSet d.effects x,
                w := clearBit d.w acc.1.trackOpBit, n := clearBit d.n acc.1.trackOpBit },
             acc.2)
          else
            (setDep acc.1 tk.1 tk.2
              { d with w := clearBit d.w acc.1.trackOpBit, n := clearBit d.n acc.1.trackOpBit },
             acc.2 ++ [tk])) acc)).1.effects = acc.1.effects ∧
      ((ds.foldl (fun (acc : St × List (Nat × DKey)) (tk : Nat × DKey) =>
        match depAt acc.1 tk.1 tk.2 with
        | none => (acc.1, acc.2 ++ [tk])
        | some d =>
          if wasTrackedB d acc.1.trackOpBit ∧ ¬ newTrackedB d acc.1.trackOpBit then
            (setDep acc.1 tk.1 tk.2
              { effects := delSet d.effects x,
                w := clearBit d.w acc.1.trackOpBit, n := clearBit d.n acc.1.trackOpBit },
             acc.2)
          else
            (setDep acc.1 tk.1 tk.2
              { d with w := clearBit d.w acc.1.trackOpBit, n := clearBit d.n acc.1.trackOpBit },
             acc.2 ++ [tk])) acc)).1.log = acc.1.log := by
    intro ds
    induction ds with
    | nil => intro acc; exact ⟨rfl, rfl⟩
    | cons tk rest ih =>
      intro acc
      rw [List.foldl_cons]
      cases hdep : depAt acc.1 tk.1 tk.2 with
      | none => simp only [hdep]; exact ih _
      | some d =>
        simp only [hdep]
        have hset : ∀ (dd : DepRec),
            (setDep acc.1 tk.1 tk.2 dd).effects = acc.1.effects ∧
            (setDep acc.1 tk.1 tk.2 dd).log = acc.1.log := by
          intro dd
          unfold setDep
          cases aGet acc.1.targetMap tk.1 <;> exact ⟨rfl, rfl⟩
        split
        · obtain ⟨i1, i2⟩ := ih (setDep acc.1 tk.1 tk.2
            { effects := delSet d.effects x,
              w := clearBit d.w acc.1.trackOpBit, n := clearBit d.n acc.1.trackOpBit }, acc.2)
          rw [i1, i2, (hset _).1, (hset _).2]
          exact ⟨rfl, rfl⟩
        · obtain ⟨i1, i2⟩ := ih (setDep acc.1 tk.1 tk.2
            { d with w := clearBit d.w acc.1.trackOpBit, n := clearBit d.n acc.1.trackOpBit },
            acc.2 ++ [tk])
          rw [i1, i2, (hset _).1, (hset _).2]
          exact ⟨rfl, rfl⟩
  obtain ⟨h1, h2⟩ := hfold (st.effects x).deps (st, [])
  refine ⟨?_, ?_, ?_, ?_⟩
  · rw [Function.update_apply]
    rcases eq_or_ne y x with hy | hy
    · rw [if_pos hy]
      dsimp only
      rw [h1, hy]
    · rw [if_neg hy, h1]
  · rw [Function.update_apply]
    rcases eq_or_ne y x with hy | hy
    · rw [if_pos hy]
      dsimp only
      rw [h1, hy]
    · rw [if_neg hy, h1]
  · rw [Function.update_apply]
    rcases eq_or_ne y x with hy | hy
    · rw [if_pos hy]
      dsimp only
      rw [h1, hy]
    · rw [if_neg hy, h1]
  · exact h2

lemma setDep_effects (st : St) (t : Nat) (k : DKey) (d : DepRec) :
    (setDep st t k d).effects = st.effects := by
  unfold setDep
  cases aGet st.targetMap t <;> rfl

lemma initDepMarkers_effects (x : Nat) (st : St) :
    (initDepMarkers x st).effects = st.effects := by
  unfold initDepMarkers
  have hfold : ∀ (l : List (Nat × DKey)) (s : St),
      (l.foldl (fun acc tk =>
        match depAt acc tk.1 tk.2 with
        | none => acc
        | some d =>
          setDep acc tk.1 tk.2
            { d with w := d.w ||| acc.trackOpBit, n := clearBit d.n acc.trackOpBit }) s).effects
        = s.effects := by
    intro l
    induction l with
    | nil => intro s; rfl
    | cons tk rest ih =>
      intro s
      rw [List.foldl_cons]
      cases hdep : depAt s tk.1 tk.2 with
      | none => simp only [hdep]; exact ih _
      | some d =>
        simp only [hdep]
        rw [ih]
        exact setDep_effects _ _ _ _
  exact hfold _ st

lemma ns_track {e : Nat} (t : Nat) (ty : TrackType) (k : DKey) (st : St)
    (h : neverSubscribed e st) : neverSubscribed e (track t ty k st) := by
  obtain ⟨h1, h2, h3, h4⟩ := h
  obtain ⟨p1, _, _, _, p5⟩ := track_pres t ty k st
  refine ⟨?_, depsClean_track t ty k st h2 h3, ?_, ?_⟩
  · rw [track_active]; exact h1
  · rw [p1]; exact h3
  · intro y; rw [(p5 y).1]; exact h4 y

lemma ns_stopEffect {e : Nat} (x : Nat) (st : St) (h : neverSubscribed e st) :
    neverSubscribed e (stopEffect x st) := by
  obtain ⟨h1, h2, h3, h4⟩ := h
  by_cases hxe : x = e
  · subst hxe
    have hid : stopEffect x st = st := by
      unfold stopEffect
      rw [if_neg h3, if_neg (by simp [h1])]
    rw [hid]
    exact ⟨h1, h2, h3, h4⟩
  · obtain ⟨p1, _, _, _, p5⟩ := stopEffect_pres x st
    refine ⟨?_, depsClean_stopEffect x st h2, ?_, ?_⟩
    · rw [stopEffect_active_other (Ne.symm hxe) st]; exact h1
    · rw [p1]; exact h3
    · intro y; rw [(p5 y).1]; exact h4 y

lemma ns_resetTracking {e : Nat} (st : St) (h : neverSubscribed e st) :
    neverSubscribed e (resetTracking st) := by
  unfold resetTracking
  split <;> exact h

lemma ns_initDepMarkers {e : Nat} (x : Nat) (st : St) (h : neverSubscribed e st) :
    neverSubscribed e (initDepMarkers x st) := by
  obtain ⟨h1, h2, h3, h4⟩ := h
  obtain ⟨p1, _, _, _, _⟩ := initDepMarkers_pres x st
  refine ⟨?_, depsClean_initDepMarkers st h2, ?_, ?_⟩
  · rw [initDepMarkers_effects]; exact h1
  · rw [p1]; exact h3
  · intro y; rw [initDepMarkers_effects]; exact h4 y

lemma ns_cleanupEffect {e : Nat} (x : Nat) (st : St) (h : neverSubscribed e st) :
    neverSubscribed e (cleanupEffect x st) := by
  obtain ⟨h1, h2, h3, h4⟩ := h
  obtain ⟨hE, _⟩ := cleanupEffect_effects_log x st
  obtain ⟨p1, _, _, _, _⟩ := cleanupEffect_pres x st
  refine ⟨?_, depsClean_cleanupEffect st h2, ?_, ?_⟩
  · rw [hE, Function.update_apply]
    split
    · rename_i he; dsimp only; rw [← he]; exact h1
    · exact h1
  · rw [p1]; exact h3
  · intro y
    rw [hE, Function.update_apply]
    split
    · rename_i he; dsimp only; rw [← he]; exact h4 y
    · exact h4 y

lemma ns_finalizeDepMarkers {e : Nat} (x : Nat) (st : St) (h : neverSubscribed e st) :
    neverSubscribed e (finalizeDepMarkers x st) := by
  obtain ⟨h1, h2, h3, h4⟩ := h
  obtain ⟨p1, _, _, _, _⟩ := finalizeDepMarkers_pres x st
  refine ⟨?_, depsClean_finalizeDepMarkers st h2, ?_, ?_⟩
  · rw [(finalizeDepMarkers_frame x st e).1]; exact h1
  · rw [p1]; exact h3
  · intro y; rw [(finalizeDepMarkers_frame x st y).2.1]; exact h4 y

lemma ns_runEnter {e : Nat} (x : Nat) (hxe : x ≠ e) (st : St)
    (h : neverSubscribed e st) : neverSubscribed e (runEnter x st) := by
  obtain ⟨h1, h2, h3, h4⟩ := h
  unfold runEnter
  refine ⟨?_, h2, ?_, ?_⟩
  · dsimp only
    rw [Function.update_apply, if_neg (Ne.symm hxe)]
    exact h1
  · dsimp only
    exact fun hc => hxe (Option.some.inj hc)
  · intro y
    dsimp only
    rw [Function.update_apply]
    split
    · dsimp only; exact h3
    · exact h4 y

lemma ns_runExitCore {e : Nat} (x : Nat) (hxe : x ≠ e) (b : Bool) (st : St)
    (h : neverSubscribed e st) : neverSubscribed e (runExitCore x b st) := by
  have hst4 : neverSubscribed e
      (if st.depth ≤ maxMarkerBits then finalizeDepMarkers x st else st) := by
    split
    · exact ns_finalizeDepMarkers x st h
    · exact h
  obtain ⟨g1, g2, g3, g4⟩ := hst4
  unfold runExitCore
  dsimp only
  refine ⟨?_, g2, ?_, ?_⟩
  · dsimp only
    rw [Function.update_apply, if_neg (Ne.symm hxe)]
    exact g1
  · exact g4 x
  · intro y
    dsimp only
    rw [Function.update_apply]
    split
    · dsimp only; exact fun hc => Option.noConfusion hc
    · exact g4 y

lemma ns_runExit {e : Nat} (x : Nat) (hxe : x ≠ e) (b : Bool) (st : St)
    (h : neverSubscribed e st) : neverSubscribed e (runExit x b st) := by
  have hc := ns_runExitCore x hxe b st h
  unfold runExit
  dsimp only
  split
  · exact ns_stopEffect x _ hc
  · exact hc

lemma ns_foldl {e : Nat} {α : Type} {g : α → St → St}
    (hg : ∀ x st, neverSubscribed e st → neverSubscribed e (g x st)) :
    ∀ (l : List α) (st : St), neverSubscribed e st →
      neverSubscribed e (l.foldl (fun acc x => g x acc) st) := by
  intro l
  induction l with
  | nil => intro st h; exact h
  | cons a rest ih =>
    intro st h
    rw [List.foldl_cons]
    exact ih _ (hg a st h)

lemma ns_scopePhase12 {e : Nat} (s : Nat) (st : St) (h : neverSubscribed e st) :
    neverSubscribed e (scopePhase12 s st) := by
  unfold scopePhase12
  dsimp only
  exact @ns_foldl e Nat (fun c acc => { acc with log := acc.log ++ [Ev.cleanup c] })
    (fun c st h => h) _ _
    (ns_foldl (fun x st h => ns_stopEffect x st h) _ st h)

lemma scopeFinish_frame (s : Nat) (b : Bool) (st : St) :
    (scopeFinish s b st).effects = st.effects ∧
    (scopeFinish s b st).targetMap = st.targetMap ∧
    (scopeFinish s b st).activeEffect = st.activeEffect := by
  unfold scopeFinish
  dsimp only
  refine ⟨?_, ?_, ?_⟩ <;> (repeat' split) <;> rfl

lemma ns_scopeFinish {e : Nat} (s : Nat) (b : Bool) (st : St)
    (h : neverSubscribed e st) : neverSubscribed e (scopeFinish s b st) := by
  obtain ⟨f1, f2, f3⟩ := scopeFinish_frame s b st
  obtain ⟨h1, h2, h3, h4⟩ := h
  refine ⟨?_, depsClean_of_targetMap_eq f2 h2, ?_, ?_⟩
  · rw [f1]; exact h1
  · rw [f3]; exact h3
  · intro y; rw [f1]; exact h4 y

lemma ns_exec {e : Nat} : ∀ (f : Nat) (tk : ETask) (st : St),
    neverSubscribed e st → neverSubscribed e (exec f tk st).1 := by
  intro f
  induction f with
  | zero => intro tk st h; rw [exec]; exact h
  | succ f ih =>
    intro tk st h
    match tk with
    | .cmds [] => rw [exec]; exact h
    | .cmds (c :: cs) =>
      match c with
      | .track t ty k => rw [exec]; exact ih _ _ (ns_track t ty k st h)
      | .pause => rw [exec]; exact ih _ _ h
      | .enable => rw [exec]; exact ih _ _ h
      | .reset => rw [exec]; exact ih _ _ (ns_resetTracking st h)
      | .logActive x => rw [exec]; exact ih _ _ h
      | .stopEffect x => rw [exec]; exact ih _ _ (ns_stopEffect x st h)
      | .throwErr => rw [exec]; exact h
      | .runEffect x =>
        rw [exec]
        try dsimp only
        split
        · exact ih (.runE x) st h
        · exact ih _ _ (ih (.runE x) st h)
      | .scopeStop s =>
        rw [exec]
        try dsimp only
        exact ih _ _ (ih (.scStop s false) st h)
      | .trigger t ty k nv =>
        rw [exec]
        try dsimp only
        split
        · exact ih _ _ h
        · split
          · exact ih _ _ h
          · split
            · exact ih _ st h
            · exact ih _ _ (ih _ st h)
    | .runE x =>
      rw [exec]
      try dsimp only
      split
      · exact ih _ st h
      · split
        · exact h
        · rename_i hact _
          have hxe : x ≠ e := by
            intro hc
            subst hc
            exact hact (by simp [h.1])
          have h1 := ns_runEnter x hxe st h
          have h2 : neverSubscribed e
              (if (runEnter x st).depth ≤ maxMarkerBits then initDepMarkers x (runEnter x st)
               else cleanupEffect x (runEnter x st)) := by
            split
            · exact ns_initDepMarkers x _ h1
            · exact ns_cleanupEffect x _ h1
          exact ns_runExit x hxe st.shouldTrack _ (ih _ _ h2)
    | .trigEffs ids =>
      rw [exec]
      try dsimp only
      split
      · exact ih _ st h
      · exact ih _ _ (ih _ st h)
    | .trigList ph [] => rw [exec]; exact h
    | .trigList ph (x :: rest) =>
      rw [exec]
      try dsimp only
      split
      · split
        · exact ih _ st h
        · exact ih _ _ (ih _ st h)
      · exact ih _ st h
    | .trigEff x =>
      rw [exec]
      try dsimp only
      split
      · split
        · exact h
        · exact ih _ st h
      · exact h
    | .scStop s fromParent =>
      rw [exec]
      try dsimp only
      split
      · exact h
      · have h12 := ns_scopePhase12 s st h
        split
        · exact ns_scopeFinish s fromParent _ h12
        · exact ns_scopeFinish s fromParent _ (ih _ _ h12)
    | .scKids [] => rw [exec]; exact h
    | .scKids (c :: cs) =>
      rw [exec]
      try dsimp only
      exact ih _ _ (ih (.scStop c true) st h)

lemma track_noop_of_noactive : ∀ (f : Nat) (cs : List Cmd) (st : St),
    (∀ c ∈ cs, ∃ t ty k, c = Cmd.track t ty k) → st.activeEffect = none →
    (exec f (.cmds cs) st).1 = st := by
  intro f
  induction f with
  | zero => intro cs st _ _; rw [exec]
  | succ f ih =>
    intro cs st hall ha
    match cs with
    | [] => rw [exec]
    | c :: rest =>
      obtain ⟨t, ty, k, rfl⟩ := hall c (List.mem_cons_self _ _)
      rw [exec]
      have htr : track t ty k st = st := by
        unfold track
        split
        · rfl
        · rename_i a heq
          rw [ha] at heq
          exact Option.noConfusion heq
      rw [htr]
      exact ih rest st (fun c hc => hall c (List.mem_cons_of_mem _ hc)) ha

/-- C2 counterexample: active effect 1 runs the inactive effect 2, whose fn
reads property "x" of target 5.  The inactive run executes with the outer
context untouched — `activeEffect` is still effect 1 and tracking is on — so
the read subscribes effect 1 to the Dep at (5, "x") and pushes the Dep onto
effect 1's `deps`; the claim's "no dependency is recorded for that
invocation" is false on the code. -/
theorem inactive_run_tracks_outer_effect :
    depAt (exec 10 (.runE 1) exStC2).1 5 (.str "x")
        = some { effects := [1], w := 0, n := 0 } ∧
      ((exec 10 (.runE 1) exStC2).1.effects 1).deps = [(5, .str "x")] := by
  constructor <;> decide

/-- C2 (amended): running an inactive effect skips the whole tracking
prologue/epilogue, so (i) an effect that is inactive, subscribed nowhere,
not the active effect and nobody's run parent can never become subscribed —
in particular the inactive effect itself gains no subscription from its own
run — and (ii) when no outer effect is active, an inactive run whose fn
performs only reads is a complete no-op on the state.  What the original
claim misses is that reads inside an inactive run still track the *outer*
active effect (see the counterexample). -/
theorem inactive_run_no_subscription (f e : Nat) (st : St) :
    (neverSubscribed e st → neverSubscribed e (exec f (.runE e) st).1) ∧
    ((st.effects e).active = false → st.activeEffect = none →
      (∀ c ∈ (st.effects e).fn, ∃ t ty k, c = Cmd.track t ty k) →
      (exec f (.runE e) st).1 = st) := by
  constructor
  · exact fun h => ns_exec f _ st h
  · intro h1 h2 h3
    cases f with
    | zero => rw [exec]
    | succ f =>
      rw [exec]
      try dsimp only
      split
      · exact track_noop_of_noactive f _ st h3 h2
      · rename_i hact
        simp [h1] at hact

/-- Witness for the amended C2 theorem on the concrete inactive effect 4
whose fn reads (0, "a") in a state with no active effect: both hypotheses
are discharged and both conclusions are evaluated. -/
theorem inactive_run_no_subscription_witness :
    neverSubscribed 4 (exec 5 (.runE 4) exStC2w).1 ∧
      (exec 5 (.runE 4) exStC2w).1 = exStC2w := by
  have hns : neverSubscribed 4 exStC2w := by
    refine ⟨rfl, ?_, ?_, ?_⟩
    · intro t k d hd
      exact Option.noConfusion hd
    · exact fun hc => Option.noConfusion hc
    · intro x
      unfold exStC2w
      dsimp only
      split <;> exact fun hc => Option.noConfusion hc
  have hall : ∀ c ∈ (exStC2w.effects 4).fn, ∃ t ty k, c = Cmd.track t ty k := by
    intro c hc
    rw [show (exStC2w.effects 4).fn = [Cmd.track 0 .get (.str "a")] from rfl] at hc
    rw [List.mem_singleton] at hc
    exact ⟨0, .get, .str "a", hc⟩
  exact ⟨(inactive_run_no_subscription 5 4 exStC2w).1 hns,
    (inactive_run_no_subscription 5 4 exStC2w).2 rfl rfl hall⟩

lemma clearBit_and (x bit : Nat) : clearBit x bit &&& bit = 0 := by
  unfold clearBit
  apply Nat.eq_of_testBit_eq
  intro i
  simp only [Nat.testBit_and, Nat.testBit_xor, Nat.zero_testBit]
  cases x.testBit i <;> cases bit.testBit i <;> rfl

lemma setDep_trackOpBit (st : St) (t : Nat) (k : DKey) (d : DepRec) :
    (setDep st t k d).trackOpBit = st.trackOpBit := by
  unfold setDep
  cases aGet st.targetMap t <;> rfl

lemma setDep_shouldTrack (st : St) (t : Nat) (k : DKey) (d : DepRec) :
    (setDep st t k d).shouldTrack = st.shouldTrack := by
  unfold setDep
  cases aGet st.targetMap t <;> rfl

lemma cleanupEffect_shouldTrack (x : Nat) (st : St) :
    (cleanupEffect x st).shouldTrack = st.shouldTrack := by
  unfold cleanupEffect
  dsimp only
  have hfold : ∀ (l : List (Nat × DKey)) (s : St),
      (l.foldl (fun acc tk => match depAt acc tk.1 tk.2 with
        | none => acc
        | some d => setDep acc tk.1 tk.2 { d with effects := delSet d.effects x })
          s).shouldTrack = s.shouldTrack := by
    intro l
    induction l with
    | nil => intro s; rfl
    | cons tk rest ih =>
      intro s
      rw [List.foldl_cons]
      cases hdep : depAt s tk.1 tk.2 with
      | none => simp only [hdep]; exact ih _
      | some d =>
        simp only [hdep]
        rw [ih]
        exact setDep_shouldTrack _ _ _ _
  exact hfold _ st

lemma stopEffect_shouldTrack (x : Nat) (st : St) :
    (stopEffect x st).shouldTrack = st.shouldTrack := by
  unfold stopEffect
  split
  · rfl
  · split
    · dsimp only
      split <;> exact cleanupEffect_shouldTrack x st
    · rfl

lemma runExit_shouldTrack (e : Nat) (b : Bool) (st : St) :
    (runExit e b st).shouldTrack = b := by
  unfold runExit
  dsimp only
  split
  · rw [stopEffect_shouldTrack]
    rfl
  · rfl

lemma depAt_congr {st' st : St} (h : st'.targetMap = st.targetMap) (t : Nat) (k : DKey) :
    depAt st' t k = depAt st t k := by
  unfold depAt
  rw [h]

lemma runExitCore_deferStop (e : Nat) (b : Bool) (st : St) :
    ((runExitCore e b st).effects e).deferStop = (st.effects e).deferStop := by
  unfold runExitCore
  dsimp only
  rw [Function.update_apply, if_pos rfl]
  dsimp only
  split
  · exact (finalizeDepMarkers_frame e st e).2.2.1
  · rfl

lemma finalize_keeps_subscription (e : Nat) (st : St) (t : Nat) (k : DKey)
    (h : ∃ dep, depAt st t k = some dep ∧ e ∈ dep.effects ∧
      (dep.n &&& st.trackOpBit ≠ 0 ∨ dep.w &&& st.trackOpBit = 0)) :
    ∃ dep, depAt (finalizeDepMarkers e st) t k = some dep ∧ e ∈ dep.effects := by
  unfold finalizeDepMarkers
  dsimp only
  have hfold : ∀ (ds : List (Nat × DKey)) (acc : St × List (Nat × DKey)),
      acc.1.trackOpBit = st.trackOpBit →
      (∃ dep, depAt acc.1 t k = some dep ∧ e ∈ dep.effects ∧
        (dep.n &&& st.trackOpBit ≠ 0 ∨ dep.w &&& st.trackOpBit = 0)) →
      ((ds.foldl (fun (acc : St × List (Nat × DKey)) (tk : Nat × DKey) =>
        match depAt acc.1 tk.1 tk.2 with
        | none => (acc.1, acc.2 ++ [tk])
        | some d =>
          if wasTrackedB d acc.1.trackOpBit ∧ ¬ newTrackedB d acc.1.trackOpBit then
            (setDep acc.1 tk.1 tk.2
              { effects := delSet d.effects e,
                w := clearBit d.w acc.1.trackOpBit, n := clearBit d.n acc.1.trackOpBit },
             acc.2)
          else
            (setDep acc.1 tk.1 tk.2
              { d with w := clearBit d.w acc.1.trackOpBit, n := clearBit d.n acc.1.trackOpBit },
             acc.2 ++ [tk])) acc)).1.trackOpBit = st.trackOpBit ∧
      (∃ dep, depAt ((ds.foldl (fun (acc : St × List (Nat × DKey)) (tk : Nat × DKey) =>
        match depAt acc.1 tk.1 tk.2 with
        | none => (acc.1, acc.2 ++ [tk])
        | some d =>
          if wasTrackedB d acc.1.trackOpBit ∧ ¬ newTrackedB d acc.1.trackOpBit then
            (setDep acc.1 tk.1 tk.2
              { effects := delSet d.effects e,
                w := clearBit d.w acc.1.trackOpBit, n := clearBit d.n acc.1.trackOpBit },
             acc.2)
          else
            (setDep acc.1 tk.1 tk.2
              { d with w := clearBit d.w acc.1.trackOpBit, n := clearBit d.n acc.1.trackOpBit },
             acc.2 ++ [tk])) acc)).1 t k = some dep ∧ e ∈ dep.effects ∧
        (dep.n &&& st.trackOpBit ≠ 0 ∨ dep.w &&& st.trackOpBit = 0)) := by
    intro ds
    induction ds with
    | nil => intro acc h1 h2; exact ⟨h1, h2⟩
    | cons tk0 rest ih =>
      intro acc hTB hI
      rw [List.foldl_cons]
      refine ih _ ?_ ?_ |>.imp id id
      all_goals obtain ⟨dep, hdep, hmem, hbit⟩ := hI
      · -- trackOpBit preserved by one step
        cases hd0 : depAt acc.1 tk0.1 tk0.2 with
        | none => simp only [hd0]; exact hTB
        | some d =>
          simp only [hd0]
          split <;> (dsimp only; rw [setDep_trackOpBit]; exact hTB)
      · -- invariant preserved by one step
        cases hd0 : depAt acc.1 tk0.1 tk0.2 with
        | none => simp only [hd0]; exact ⟨dep, hdep, hmem, hbit⟩
        | some d =>
          simp only [hd0]
          split
          · rename_i hcond
            by_cases hsame : tk0.1 = t ∧ tk0.2 = k
            · obtain ⟨h1', h2'⟩ := hsame
              rw [h1', h2'] at hd0
              have hde : d = dep := by rw [hd0] at hdep; exact Option.some.inj hdep
              subst hde
              obtain ⟨hw, hn⟩ := hcond
              rcases hbit with hb | hb
              · rw [hTB] at hn
                exact absurd (by simpa [newTrackedB] using hb) hn
              · rw [hTB] at hw
                exact absurd hb (by simpa [wasTrackedB] using hw)
            · refine ⟨dep, ?_, hmem, hbit⟩
              dsimp only
              rw [depAt_setDep_other _ _ _ _ _ _ (fun hc => hsame ⟨hc.1.symm, hc.2.symm⟩)]
              exact hdep
          · by_cases hsame : tk0.1 = t ∧ tk0.2 = k
            · obtain ⟨h1', h2'⟩ := hsame
              rw [h1', h2'] at hd0 ⊢
              obtain ⟨m, hm⟩ := depAt_some_targetMap hd0
              have hde : d = dep := by rw [hd0] at hdep; exact Option.some.inj hdep
              dsimp only
              refine ⟨_, depAt_setDep_self _ _ _ _ hm, ?_, Or.inr ?_⟩
              · dsimp only; rw [hde]; exact hmem
              · dsimp only; rw [hTB]; exact clearBit_and _ _
            · refine ⟨dep, ?_, hmem, hbit⟩
              dsimp only
              rw [depAt_setDep_other _ _ _ _ _ _ (fun hc => hsame ⟨hc.1.symm, hc.2.symm⟩)]
              exact hdep
  obtain ⟨-, dep, h1, h2, -⟩ := hfold (st.effects e).deps (st, []) rfl h
  exact ⟨dep, h1, h2⟩

lemma runExit_keeps_subscription (e : Nat) (b : Bool) (st : St) (t : Nat) (k : DKey)
    (hdef : (st.effects e).deferStop = false)
    (h : ∃ dep, depAt st t k = some dep ∧ e ∈ dep.effects ∧ dep.n &&& st.trackOpBit ≠ 0) :
    ∃ dep, depAt (runExit e b st) t k = some dep ∧ e ∈ dep.effects := by
  unfold runExit
  dsimp only
  split
  · rename_i hds
    rw [runExitCore_deferStop, hdef] at hds
    exact absurd hds (by simp)
  · have hT : (runExitCore e b st).targetMap
        = (if st.depth ≤ maxMarkerBits then finalizeDepMarkers e st else st).targetMap := rfl
    rw [depAt_congr hT t k]
    split
    · refine finalize_keeps_subscription e st t k ?_
      obtain ⟨dep, h1, h2, h3⟩ := h
      exact ⟨dep, h1, h2, Or.inl h3⟩
    · obtain ⟨dep, h1, h2, _⟩ := h
      exact ⟨dep, h1, h2⟩

/-- C9 counterexample: the inactive branch of `run()` is a plain
`return this.fn()` with no `try/finally`, so when the inactive effect 3's fn
pauses tracking and then throws, the exception propagates with `shouldTrack`
left `false` — not restored to the `true` it held when `run()` was entered,
contradicting the claim's unconditional restoration of the process-wide
variables. -/
theorem inactive_throw_leaves_tracking_off :
    exStC9.shouldTrack = true ∧
    (exec 5 (.runE 3) exStC9).2.1 = true ∧
    (exec 5 (.runE 3) exStC9).1.shouldTrack = false := by
  refine ⟨rfl, ?_, ?_⟩ <;> decide

/-- C9 (amended): for an *active* effect, `run()` is the guarded `try` body
plus a `finally`, so whatever `fn` does — including throwing — the run
returns the body's exception flag unchanged (the exception propagates), and
the `finally` restores `activeEffect`, `shouldTrack`, `trackOpBit` (and the
recursion depth) to their entry values; moreover every subscription of the
running effect recorded during the body (newly-tracked at this run's depth
bit) survives the `finally`'s `finalizeDepMarkers`, provided no deferred
stop is pending.  `runBody f e st` is the body's result.  (For an inactive
effect there is no `finally` and restoration fails: see the
counterexample.) -/
theorem run_throw_restores_context (f e : Nat) (st : St) (L : List Nat)
    (hS : Stacked L st) (hB : trackBitInv st)
    (hact : (st.effects e).active = true)
    (hch : chainHas (f + 1) st st.activeEffect e = false) :
    exec (f + 1) (.runE e) st
        = (runExit e st.shouldTrack (runBody f e st).1, (runBody f e st).2.1, []) ∧
    (exec (f + 1) (.runE e) st).1.activeEffect = st.activeEffect ∧
    (exec (f + 1) (.runE e) st).1.shouldTrack = st.shouldTrack ∧
    (exec (f + 1) (.runE e) st).1.trackOpBit = st.trackOpBit ∧
    (exec (f + 1) (.runE e) st).1.depth = st.depth ∧
    (∀ t k, trackedQ e t k (st.depth + 1) (runBody f e st).1 →
      ((runBody f e st).1.effects e).deferStop = false →
      ∃ dep, depAt (exec (f + 1) (.runE e) st).1 t k = some dep ∧ e ∈ dep.effects) := by
  have heq : exec (f + 1) (.runE e) st
      = (runExit e st.shouldTrack (runBody f e st).1, (runBody f e st).2.1, []) := by
    rw [exec]
    try dsimp only
    rw [if_neg (show ¬ ¬ ((st.effects e).active = true) by simp [hact]),
      if_neg (show ¬ (chainHas (f + 1) st st.activeEffect e = true) by simp [hch])]
    rfl
  have hP := exec_pres (f + 1) (.runE e) st L hS hB
  refine ⟨heq, hP.1, ?_, hP.2.2.1, hP.2.1, ?_⟩
  · rw [heq]
    exact runExit_shouldTrack e st.shouldTrack _
  · intro t k htr hdef
    have hbit : (runBody f e st).1.trackOpBit = 1 <<< (st.depth + 1) := by
      obtain ⟨s1, s2, s3, s4⟩ := hS
      have heL : e ∉ L :=
        chainHas_false_not_mem L (f + 1) st s3 e (by rw [← s1]; exact hch)
      have hS1 : Stacked (e :: L) (runEnter e st) := stacked_runEnter ⟨s1, s2, s3, s4⟩ heL
      have hP12 : Pres (runEnter e st)
          (if (runEnter e st).depth ≤ maxMarkerBits then initDepMarkers e (runEnter e st)
           else cleanupEffect e (runEnter e st)) := by
        split
        · exact initDepMarkers_pres e _
        · exact cleanupEffect_pres e _
      have hS2 := stacked_of_pres hS1 hP12
      have hB2 := trackBitInv_of_pres hP12 (trackBitInv_runEnter e st)
      have hPr := exec_pres f (.cmds (st.effects e).fn) _ (e :: L) hS2 hB2
      unfold runBody
      rw [hPr.2.2.1, hP12.2.2.1]
      rfl
    rw [heq]
    refine runExit_keeps_subscription e st.shouldTrack _ t k hdef ?_
    obtain ⟨dep, h1, h2, h3⟩ := htr
    refine ⟨dep, h1, h2, ?_⟩
    rw [hbit]
    exact h3

/-- Witness for the amended C9 theorem: the idle active effect 6, whose fn
reads (2, "y") and then throws, run from the empty stack at fuel 5 + 1: the
exception flag of the body is propagated, the context variables come back
to their initial values, and the subscription recorded before the throw is
retained in the final registry. -/
theorem run_throw_restores_context_witness :
    (exec 6 (.runE 6) exStC9w).2.1 = true ∧
    (exec 6 (.runE 6) exStC9w).1.activeEffect = none ∧
    (exec 6 (.runE 6) exStC9w).1.shouldTrack = true ∧
    (exec 6 (.runE 6) exStC9w).1.trackOpBit = 1 ∧
    (exec 6 (.runE 6) exStC9w).1.depth = 0 ∧
    (∃ dep, depAt (exec 6 (.runE 6) exStC9w).1 2 (.str "y") = some dep ∧ 6 ∈ dep.effects) := by
  have hS : Stacked [] exStC9w := by
    refine ⟨rfl, List.nodup_nil, ?_, ?_⟩
    · intro i h
      exact absurd h (by simp)
    · intro x _
      unfold exStC9w
      dsimp only
      split <;> rfl
  have hmain := run_throw_restores_context 5 6 exStC9w [] hS rfl (by decide) (by decide)
  obtain ⟨heq, hA, hT, hO, hD, hkeep⟩ := hmain
  refine ⟨?_, hA, hT, hO, hD, ?_⟩
  · rw [heq]
    decide
  · refine hkeep 2 (.str "y") ?_ (by decide)
    exact ⟨{ effects := [6], w := 0, n := 2 }, by decide, by decide, by decide⟩

lemma setDep_scopes (st : St) (t : Nat) (k : DKey) (d : DepRec) :
    (setDep st t k d).scopes = st.scopes := by
  unfold setDep
  cases aGet st.targetMap t <;> rfl

lemma cleanupEffect_scopes (x : Nat) (st : St) :
    (cleanupEffect x st).scopes = st.scopes := by
  unfold cleanupEffect
  dsimp only
  have hfold : ∀ (l : List (Nat × DKey)) (s : St),
      (l.foldl (fun acc tk => match depAt acc tk.1 tk.2 with
        | none => acc
        | some d => setDep acc tk.1 tk.2 { d with effects := delSet d.effects x })
          s).scopes = s.scopes := by
    intro l
    induction l with
    | nil => intro s; rfl
    | cons tk rest ih =>
      intro s
      rw [List.foldl_cons]
      cases hdep : depAt s tk.1 tk.2 with
      | none => simp only [hdep]; exact ih _
      | some d =>
        simp only [hdep]
        rw [ih]
        exact setDep_scopes _ _ _ _
  exact hfold _ st

lemma stopEffect_scopes (x : Nat) (st : St) :
    (stopEffect x st).scopes = st.scopes := by
  unfold stopEffect
  split
  · rfl
  · split
    · dsimp only
      split <;> exact cleanupEffect_scopes x st
    · rfl

lemma stopEffect_log (x : Nat) (st : St) :
    (stopEffect x st).log = st.log ++
      (if st.activeEffect ≠ some x ∧ (st.effects x).active then
        Ev.effStop x :: (if (st.effects x).hasOnStop then [Ev.onStopEv x] else [])
      else []) := by
  obtain ⟨hE, hL⟩ := cleanupEffect_effects_log x st
  unfold stopEffect
  split
  · rename_i hae
    rw [if_neg (fun hc => hc.1 hae)]
    simp
  · rename_i hae
    split
    · rename_i hac
      rw [if_pos ⟨hae, hac⟩]
      dsimp only
      have hOn : ((cleanupEffect x st).effects x).hasOnStop = (st.effects x).hasOnStop := by
        rw [hE]
        simp [Function.update_apply]
      split
      · rename_i hon
        rw [hOn] at hon
        rw [if_pos hon, hL]
        simp
      · rename_i hon
        rw [hOn] at hon
        rw [if_neg (by simpa using hon), hL]
    · rename_i hac
      rw [if_neg (fun hc => hac hc.2)]
      simp

lemma stopEffect_deactivates (x : Nat) (st : St) (hae : st.activeEffect ≠ some x) :
    ((stopEffect x st).effects x).active = false := by
  obtain ⟨hE, _⟩ := cleanupEffect_effects_log x st
  unfold stopEffect
  rw [if_neg hae]
  split
  · dsimp only
    split <;> simp [Function.update_apply]
  · rename_i hac
    simpa using hac

lemma stopEffect_active_sticky (x y : Nat) (st : St)
    (h : (st.effects y).active = false) : ((stopEffect x st).effects y).active = false := by
  by_cases hxy : y = x
  · subst hxy
    obtain ⟨hE, _⟩ := cleanupEffect_effects_log y st
    unfold stopEffect
    split
    · simpa [Function.update_apply] using h
    · split
      · dsimp only
        split <;> simp [Function.update_apply]
      · exact h
  · rw [stopEffect_active_other hxy]
    exact h

lemma stopFold_scopes : ∀ (l : List Nat) (acc : St),
    (l.foldl (fun a e => stopEffect e a) acc).scopes = acc.scopes := by
  intro l
  induction l with
  | nil => intro acc; rfl
  | cons e tl ih =>
    intro acc
    rw [List.foldl_cons, ih]
    exact stopEffect_scopes e acc

lemma stopFold_activeEffect : ∀ (l : List Nat) (acc : St),
    (l.foldl (fun a e => stopEffect e a) acc).activeEffect = acc.activeEffect := by
  intro l
  induction l with
  | nil => intro acc; rfl
  | cons e tl ih =>
    intro acc
    rw [List.foldl_cons, ih]
    exact (stopEffect_pres e acc).1

lemma stopFold_hasOnStop : ∀ (l : List Nat) (acc : St) (y : Nat),
    ((l.foldl (fun a e => stopEffect e a) acc).effects y).hasOnStop
      = ((acc.effects y).hasOnStop) := by
  intro l
  induction l with
  | nil => intro acc y; rfl
  | cons e tl ih =>
    intro acc y
    rw [List.foldl_cons, ih]
    exact ((stopEffect_pres e acc).2.2.2.2 y).2.2.2.2.1

lemma stopFold_sticky : ∀ (l : List Nat) (acc : St) (y : Nat),
    (acc.effects y).active = false →
    ((l.foldl (fun a e => stopEffect e a) acc).effects y).active = false := by
  intro l
  induction l with
  | nil => intro acc y h; exact h
  | cons e tl ih =>
    intro acc y h
    rw [List.foldl_cons]
    exact ih _ y (stopEffect_active_sticky e y acc h)

lemma stopFold_active_other : ∀ (l : List Nat) (acc : St) (y : Nat), y ∉ l →
    ((l.foldl (fun a e => stopEffect e a) acc).effects y).active
      = (acc.effects y).active := by
  intro l
  induction l with
  | nil => intro acc y _; rfl
  | cons e tl ih =>
    intro acc y hy
    rw [List.foldl_cons, ih _ y (fun hc => hy (List.mem_cons_of_mem _ hc))]
    refine stopEffect_active_other (fun hc => hy ?_) acc
    rw [hc]
    exact List.mem_cons_self _ _

lemma stopFold_deactivates : ∀ (l : List Nat) (acc : St), acc.activeEffect = none →
    ∀ e ∈ l, ((l.foldl (fun a e => stopEffect e a) acc).effects e).active = false := by
  intro l
  induction l with
  | nil => intro acc _ e he; exact absurd he (by simp)
  | cons e0 tl ih =>
    intro acc hae e he
    rw [List.foldl_cons]
    rcases List.mem_cons.mp he with he | he
    · subst he
      exact stopFold_sticky tl _ e
        (stopEffect_deactivates e acc (by rw [hae]; exact fun hc => Option.noConfusion hc))
    · exact ih _ (by rw [(stopEffect_pres e0 acc).1]; exact hae) e he

lemma stopFold_log (st : St) : ∀ (l : List Nat) (acc : St),
    acc.activeEffect = st.activeEffect →
    (∀ e ∈ l, (acc.effects e).active = (st.effects e).active ∧
      (acc.effects e).hasOnStop = (st.effects e).hasOnStop) →
    l.Nodup →
    (l.foldl (fun a e => stopEffect e a) acc).log = acc.log ++ stopEvts l st := by
  intro l
  induction l with
  | nil =>
    intro acc _ _ _
    simp [stopEvts]
  | cons e tl ih =>
    intro acc hae hag hnd
    rw [List.foldl_cons]
    have hev : (stopEffect e acc).log = acc.log ++
        (if st.activeEffect ≠ some e ∧ (st.effects e).active then
          Ev.effStop e :: (if (st.effects e).hasOnStop then [Ev.onStopEv e] else [])
        else []) := by
      rw [stopEffect_log, hae, (hag e (List.mem_cons_self _ _)).1,
        (hag e (List.mem_cons_self _ _)).2]
    have hne : ∀ e' ∈ tl, e' ≠ e := by
      intro e' he' hc
      subst hc
      exact (List.nodup_cons.mp hnd).1 he'
    rw [ih (stopEffect e acc)
      (by rw [(stopEffect_pres e acc).1]; exact hae)
      (fun e' he' => ⟨by
          rw [stopEffect_active_other (hne e' he') acc]
          exact (hag e' (List.mem_cons_of_mem _ he')).1,
        by
          rw [((stopEffect_pres e acc).2.2.2.2 e').2.2.2.2.1]
          exact (hag e' (List.mem_cons_of_mem _ he')).2⟩)
      (List.nodup_cons.mp hnd).2]
    rw [hev]
    have hcons : stopEvts (e :: tl) st =
        (if st.activeEffect ≠ some e ∧ (st.effects e).active then
          Ev.effStop e :: (if (st.effects e).hasOnStop then [Ev.onStopEv e] else [])
        else []) ++ stopEvts tl st := rfl
    rw [hcons, List.append_assoc]

lemma cleanFold_eq : ∀ (l : List Nat) (acc : St),
    l.foldl (fun acc c => { acc with log := acc.log ++ [Ev.cleanup c] }) acc
      = { acc with log := acc.log ++ l.map Ev.cleanup } := by
  intro l
  induction l with
  | nil => intro acc; simp
  | cons c tl ih =>
    intro acc
    rw [List.foldl_cons, ih]
    simp [List.append_assoc]

lemma scopePhase12_scopes (s : Nat) (st : St) :
    (scopePhase12 s st).scopes = st.scopes := by
  unfold scopePhase12
  dsimp only
  rw [cleanFold_eq]
  exact stopFold_scopes _ _

lemma scopePhase12_activeEffect (s : Nat) (st : St) :
    (scopePhase12 s st).activeEffect = st.activeEffect := by
  unfold scopePhase12
  dsimp only
  rw [cleanFold_eq]
  exact stopFold_activeEffect _ _

lemma scopePhase12_hasOnStop (s : Nat) (st : St) (y : Nat) :
    ((scopePhase12 s st).effects y).hasOnStop = (st.effects y).hasOnStop := by
  unfold scopePhase12
  dsimp only
  rw [cleanFold_eq]
  exact stopFold_hasOnStop _ _ y

lemma scopePhase12_log (s : Nat) (st : St) (hnd : ((st.scopes s).effects).Nodup) :
    (scopePhase12 s st).log = st.log ++ stopEvts (st.scopes s).effects st ++
      ((st.scopes s).cleanups).map Ev.cleanup := by
  unfold scopePhase12
  dsimp only
  rw [cleanFold_eq]
  have hsc : (((st.scopes s).effects.foldl (fun a e => stopEffect e a) st).scopes s).cleanups
      = (st.scopes s).cleanups := by
    rw [stopFold_scopes]
  rw [hsc, stopFold_log st _ st rfl (fun e _ => ⟨rfl, rfl⟩) hnd]

lemma scopePhase12_deactivates (s : Nat) (st : St) (hae : st.activeEffect = none) :
    ∀ e ∈ (st.scopes s).effects, ((scopePhase12 s st).effects e).active = false := by
  intro e he
  unfold scopePhase12
  dsimp only
  rw [cleanFold_eq]
  exact stopFold_deactivates _ st hae e he

lemma scopePhase12_active_other (s : Nat) (st : St) (y : Nat)
    (hy : y ∉ (st.scopes s).effects) :
    ((scopePhase12 s st).effects y).active = (st.effects y).active := by
  unfold scopePhase12
  dsimp only
  rw [cleanFold_eq]
  exact stopFold_active_other _ st y hy

lemma scopePhase12_sticky (s : Nat) (st : St) (y : Nat)
    (h : (st.effects y).active = false) :
    ((scopePhase12 s st).effects y).active = false := by
  unfold scopePhase12
  dsimp only
  rw [cleanFold_eq]
  exact stopFold_sticky _ st y h

lemma scopeFinish_log (s : Nat) (b : Bool) (st : St) :
    (scopeFinish s b st).log = st.log := by
  unfold scopeFinish
  dsimp only
  (repeat' split) <;> rfl

lemma scopeFinish_self (s : Nat) (b : Bool) (st : St) :
    ((scopeFinish s b st).scopes s).parent = none ∧
    ((scopeFinish s b st).scopes s).active = false := by
  unfold scopeFinish
  dsimp only
  constructor <;> simp [Function.update_apply]

lemma scopeFinish_scopes_other (s : Nat) (st : St) (x : Nat) (hx : x ≠ s) :
    (scopeFinish s true st).scopes x = st.scopes x := by
  unfold scopeFinish
  dsimp only
  rw [if_neg (by simp)]
  simp [Function.update_apply, hx]

lemma scopeFinish_swap (s p : Nat) (ps : List Nat) (i : Nat) (st : St)
    (hdet : (st.scopes s).detached = false)
    (hpar : (st.scopes s).parent = some p)
    (hps : (st.scopes p).scopes = some ps)
    (hidx : (st.scopes s).index = some i)
    (hpne : p ≠ s) :
    ((scopeFinish s false st).scopes p).scopes = some (
      match ps.getLast? with
      | none => ps.dropLast
      | some l => if l ≠ s then ps.dropLast.set i l else ps.dropLast) := by
  unfold scopeFinish
  dsimp only
  rw [if_pos (by simp [hdet])]
  simp only [hpar]
  simp only [hps, Option.getD_some]
  cases hl : ps.getLast? with
  | none =>
    simp only [hl]
    simp [Function.update_apply, hpne]
  | some l =>
    simp only [hl]
    by_cases hls : l ≠ s
    · rw [if_pos hls]
      simp only [hidx]
      by_cases hlp : p = l <;> simp [Function.update_apply, hpne, hlp, hls]
    · rw [if_neg hls]
      simp [Function.update_apply, hpne, hls]

lemma scopeIdList_stop_eq (f s : Nat) (fp : Bool) (st : St) :
    scopeIdList (f + 1) (.scStop s fp) st
      = s :: (match (st.scopes s).scopes with
              | none => []
              | some ks => scopeIdList f (.scKids ks) st) := rfl

lemma scopeIdList_kids_cons_eq (f c : Nat) (cs : List Nat) (st : St) :
    scopeIdList (f + 1) (.scKids (c :: cs)) st
      = scopeIdList f (.scStop c true) st ++ scopeIdList f (.scKids cs) st := rfl

lemma scopeEffList_stop_eq (f s : Nat) (fp : Bool) (st : St) :
    scopeEffList (f + 1) (.scStop s fp) st
      = (st.scopes s).effects ++
        (match (st.scopes s).scopes with
         | none => []
         | some ks => scopeEffList f (.scKids ks) st) := rfl

lemma scopeEffList_kids_cons_eq (f c : Nat) (cs : List Nat) (st : St) :
    scopeEffList (f + 1) (.scKids (c :: cs)) st
      = scopeEffList f (.scStop c true) st ++ scopeEffList f (.scKids cs) st := rfl

lemma allActiveScopes_stop_eq (f s : Nat) (fp : Bool) (st : St) :
    allActiveScopes (f + 1) (.scStop s fp) st
      = ((st.scopes s).active &&
         (match (st.scopes s).scopes with
          | none => true
          | some ks => allActiveScopes f (.scKids ks) st)) := rfl

lemma allActiveScopes_kids_cons_eq (f c : Nat) (cs : List Nat) (st : St) :
    allActiveScopes (f + 1) (.scKids (c :: cs)) st
      = (allActiveScopes f (.scStop c true) st && allActiveScopes f (.scKids cs) st) := rfl

lemma scopeStopLog_stop_eq (f s : Nat) (fp : Bool) (st : St) :
    scopeStopLog (f + 1) (.scStop s fp) st
      = if (st.scopes s).active then
          stopEvts (st.scopes s).effects st ++
            ((st.scopes s).cleanups).map Ev.cleanup ++
            (match (st.scopes s).scopes with
             | none => []
             | some ks => scopeStopLog f (.scKids ks) st)
        else [] := rfl

lemma scopeStopLog_kids_cons_eq (f c : Nat) (cs : List Nat) (st : St) :
    scopeStopLog (f + 1) (.scKids (c :: cs)) st
      = scopeStopLog f (.scStop c true) st ++ scopeStopLog f (.scKids cs) st := rfl

lemma stopEvts_cons_eq (e : Nat) (tl : List Nat) (st : St) :
    stopEvts (e :: tl) st
      = (if st.activeEffect ≠ some e ∧ (st.effects e).active then
          Ev.effStop e :: (if (st.effects e).hasOnStop then [Ev.onStopEv e] else [])
        else []) ++ stopEvts tl st := rfl

lemma scopeIdList_congr : ∀ (f : Nat) (tk : ETask) (st st' : St),
    (∀ x ∈ scopeIdList f tk st, st'.scopes x = st.scopes x) →
    scopeIdList f tk st' = scopeIdList f tk st := by
  intro f
  induction f with
  | zero => intro tk st st' _; rfl
  | succ f ih =>
    intro tk st st' h
    match tk with
    | .cmds cs => rfl
    | .runE e => rfl
    | .trigEffs ids => rfl
    | .trigList ph ids => rfl
    | .trigEff e => rfl
    | .scStop s fp =>
      have hs : st'.scopes s = st.scopes s :=
        h s (by rw [scopeIdList_stop_eq]; exact List.mem_cons_self _ _)
      rw [scopeIdList_stop_eq, scopeIdList_stop_eq, hs]
      cases hks : (st.scopes s).scopes with
      | none => simp only [hks]
      | some ks =>
        simp only [hks]
        rw [ih (.scKids ks) st st' (fun x hx => h x (by
          rw [scopeIdList_stop_eq, hks]
          exact List.mem_cons_of_mem _ hx))]
    | .scKids [] => rfl
    | .scKids (c :: cs) =>
      rw [scopeIdList_kids_cons_eq, scopeIdList_kids_cons_eq,
        ih (.scStop c true) st st' (fun x hx => h x (by
          rw [scopeIdList_kids_cons_eq]
          exact List.mem_append_left _ hx)),
        ih (.scKids cs) st st' (fun x hx => h x (by
          rw [scopeIdList_kids_cons_eq]
          exact List.mem_append_right _ hx))]

lemma scopeEffList_congr : ∀ (f : Nat) (tk : ETask) (st st' : St),
    (∀ x ∈ scopeIdList f tk st, st'.scopes x = st.scopes x) →
    scopeEffList f tk st' = scopeEffList f tk st := by
  intro f
  induction f with
  | zero => intro tk st st' _; rfl
  | succ f ih =>
    intro tk st st' h
    match tk with
    | .cmds cs => rfl
    | .runE e => rfl
    | .trigEffs ids => rfl
    | .trigList ph ids => rfl
    | .trigEff e => rfl
    | .scStop s fp =>
      have hs : st'.scopes s = st.scopes s :=
        h s (by rw [scopeIdList_stop_eq]; exact List.mem_cons_self _ _)
      rw [scopeEffList_stop_eq, scopeEffList_stop_eq, hs]
      cases hks : (st.scopes s).scopes with
      | none => simp only [hks]
      | some ks =>
        simp only [hks]
        rw [ih (.scKids ks) st st' (fun x hx => h x (by
          rw [scopeIdList_stop_eq, hks]
          exact List.mem_cons_of_mem _ hx))]
    | .scKids [] => rfl
    | .scKids (c :: cs) =>
      rw [scopeEffList_kids_cons_eq, scopeEffList_kids_cons_eq,
        ih (.scStop c true) st st' (fun x hx => h x (by
          rw [scopeIdList_kids_cons_eq]
          exact List.mem_append_left _ hx)),
        ih (.scKids cs) st st' (fun x hx => h x (by
          rw [scopeIdList_kids_cons_eq]
          exact List.mem_append_right _ hx))]

lemma allActiveScopes_congr : ∀ (f : Nat) (tk : ETask) (st st' : St),
    (∀ x ∈ scopeIdList f tk st, st'.scopes x = st.scopes x) →
    allActiveScopes f tk st' = allActiveScopes f tk st := by
  intro f
  induction f with
  | zero => intro tk st st' _; rfl
  | succ f ih =>
    intro tk st st' h
    match tk with
    | .cmds cs => rfl
    | .runE e => rfl
    | .trigEffs ids => rfl
    | .trigList ph ids => rfl
    | .trigEff e => rfl
    | .scStop s fp =>
      have hs : st'.scopes s = st.scopes s :=
        h s (by rw [scopeIdList_stop_eq]; exact List.mem_cons_self _ _)
      rw [allActiveScopes_stop_eq, allActiveScopes_stop_eq, hs]
      cases hks : (st.scopes s).scopes with
      | none => simp only [hks]
      | some ks =>
        simp only [hks]
        rw [ih (.scKids ks) st st' (fun x hx => h x (by
          rw [scopeIdList_stop_eq, hks]
          exact List.mem_cons_of_mem _ hx))]
    | .scKids [] => rfl
    | .scKids (c :: cs) =>
      rw [allActiveScopes_kids_cons_eq, allActiveScopes_kids_cons_eq,
        ih (.scStop c true) st st' (fun x hx => h x (by
          rw [scopeIdList_kids_cons_eq]
          exact List.mem_append_left _ hx)),
        ih (.scKids cs) st st' (fun x hx => h x (by
          rw [scopeIdList_kids_cons_eq]
          exact List.mem_append_right _ hx))]

lemma stopEvts_congr : ∀ (l : List Nat) (st st' : St),
    (∀ e ∈ l, (st'.effects e).active = (st.effects e).active ∧
      (st'.effects e).hasOnStop = (st.effects e).hasOnStop) →
    st'.activeEffect = st.activeEffect →
    stopEvts l st' = stopEvts l st := by
  intro l
  induction l with
  | nil => intro st st' _ _; rfl
  | cons e tl ih =>
    intro st st' h hae
    rw [stopEvts_cons_eq, stopEvts_cons_eq, hae,
      (h e (List.mem_cons_self _ _)).1, (h e (List.mem_cons_self _ _)).2,
      ih st st' (fun e' he' => h e' (List.mem_cons_of_mem _ he')) hae]

lemma scopeStopLog_congr : ∀ (f : Nat) (tk : ETask) (st st' : St),
    (∀ x ∈ scopeIdList f tk st, st'.scopes x = st.scopes x) →
    (∀ e ∈ scopeEffList f tk st, (st'.effects e).active = (st.effects e).active ∧
      (st'.effects e).hasOnStop = (st.effects e).hasOnStop) →
    st'.activeEffect = st.activeEffect →
    scopeStopLog f tk st' = scopeStopLog f tk st := by
  intro f
  induction f with
  | zero => intro tk st st' _ _ _; rfl
  | succ f ih =>
    intro tk st st' h hE hae
    match tk with
    | .cmds cs => rfl
    | .runE e => rfl
    | .trigEffs ids => rfl
    | .trigList ph ids => rfl
    | .trigEff e => rfl
    | .scStop s fp =>
      have hs : st'.scopes s = st.scopes s :=
        h s (by rw [scopeIdList_stop_eq]; exact List.mem_cons_self _ _)
      rw [scopeStopLog_stop_eq, scopeStopLog_stop_eq, hs,
        stopEvts_congr (st.scopes s).effects st st' (fun e he => hE e (by
          rw [scopeEffList_stop_eq]
          exact List.mem_append_left _ he)) hae]
      cases hks : (st.scopes s).scopes with
      | none => simp only [hks]
      | some ks =>
        simp only [hks]
        rw [ih (.scKids ks) st st'
          (fun x hx => h x (by
            rw [scopeIdList_stop_eq, hks]
            exact List.mem_cons_of_mem _ hx))
          (fun e he => hE e (by
            rw [scopeEffList_stop_eq, hks]
            exact List.mem_append_right _ he))
          hae]
    | .scKids [] => rfl
    | .scKids (c :: cs) =>
      rw [scopeStopLog_kids_cons_eq, scopeStopLog_kids_cons_eq,
        ih (.scStop c true) st st'
          (fun x hx => h x (by
            rw [scopeIdList_kids_cons_eq]
            exact List.mem_append_left _ hx))
          (fun e he => hE e (by
            rw [scopeEffList_kids_cons_eq]
            exact List.mem_append_left _ he))
          hae,
        ih (.scKids cs) st st'
          (fun x hx => h x (by
            rw [scopeIdList_kids_cons_eq]
            exact List.mem_append_right _ hx))
          (fun e he => hE e (by
            rw [scopeEffList_kids_cons_eq]
            exact List.mem_append_right _ he))
          hae]

lemma scStop_master : ∀ (f : Nat),
    (∀ (s : Nat) (fp : Bool) (st : St),
      st.activeEffect = none →
      (scopeIdList f (.scStop s fp) st).Nodup →
      (scopeEffList f (.scStop s fp) st).Nodup →
      allActiveScopes f (.scStop s fp) st = true →
      ScConcl f (.scStop s fp) fp st) ∧
    (∀ (ks : List Nat) (st : St),
      st.activeEffect = none →
      (scopeIdList f (.scKids ks) st).Nodup →
      (scopeEffList f (.scKids ks) st).Nodup →
      allActiveScopes f (.scKids ks) st = true →
      ScConcl f (.scKids ks) true st) := by
  intro f
  induction f with
  | zero =>
    constructor
    · intro s fp st _ _ _ _
      unfold ScConcl
      rw [exec]
      exact ⟨by simp [scopeStopLog], rfl, fun _ x _ => rfl, fun e _ => rfl,
        fun e he => absurd he (by simp [scopeEffList]), fun e h => h, fun e => rfl⟩
    · intro ks st _ _ _ _
      unfold ScConcl
      rw [exec]
      exact ⟨by simp [scopeStopLog], rfl, fun _ x _ => rfl, fun e _ => rfl,
        fun e he => absurd he (by simp [scopeEffList]), fun e h => h, fun e => rfl⟩
  | succ f ih =>
    constructor
    · -- the .scStop case
      intro s fp st hae hndI hndE hall
      have hsc2 : (scopePhase12 s st).scopes = st.scopes := scopePhase12_scopes s st
      rw [scopeIdList_stop_eq] at hndI
      rw [scopeEffList_stop_eq] at hndE
      rw [allActiveScopes_stop_eq, Bool.and_eq_true] at hall
      have hact : (st.scopes s).active = true := hall.1
      have hnd_own : (st.scopes s).effects.Nodup := (List.nodup_append.mp hndE).1
      cases hks : (st.scopes s).scopes with
      | none =>
        simp only [hks] at hndI hndE hall
        have hexec : exec (f + 1) (.scStop s fp) st
            = (scopeFinish s fp (scopePhase12 s st), false, []) := by
          rw [exec]
          dsimp only
          rw [if_neg (by simp [hact])]
          have hm : ((scopePhase12 s st).scopes s).scopes = none := by
            rw [hsc2]; exact hks
          simp only [hm]
        refine ⟨?_, ?_, ?_, ?_, ?_, ?_, ?_⟩
        · rw [hexec]
          dsimp only
          rw [scopeFinish_log, scopePhase12_log s st hnd_own,
            scopeStopLog_stop_eq, if_pos hact]
          simp only [hks]
          simp [List.append_assoc]
        · rw [hexec]
          dsimp only
          rw [(scopeFinish_frame s fp _).2.2, scopePhase12_activeEffect]
        · intro hfp x hx
          subst hfp
          rw [hexec]
          dsimp only
          rw [scopeIdList_stop_eq] at hx
          simp only [hks] at hx
          have hxs : x ≠ s := by
            intro hc
            exact hx (by rw [hc]; exact List.mem_cons_self _ _)
          rw [scopeFinish_scopes_other s _ x hxs, congrFun hsc2 x]
        · intro e he
          rw [hexec]
          dsimp only
          rw [scopeEffList_stop_eq] at he
          simp only [hks, List.append_nil] at he
          rw [(scopeFinish_frame s fp _).1]
          exact scopePhase12_active_other s st e he
        · intro e he
          rw [hexec]
          dsimp only
          rw [scopeEffList_stop_eq] at he
          simp only [hks, List.append_nil] at he
          rw [(scopeFinish_frame s fp _).1]
          exact scopePhase12_deactivates s st hae e he
        · intro e h0
          rw [hexec]
          dsimp only
          rw [(scopeFinish_frame s fp _).1]
          exact scopePhase12_sticky s st e h0
        · intro e
          rw [hexec]
          dsimp only
          rw [(scopeFinish_frame s fp _).1]
          exact scopePhase12_hasOnStop s st e
      | some ks =>
        simp only [hks] at hndI hndE hall
        have hkidsAll : allActiveScopes f (.scKids ks) st = true := by
          have h2 := hall.2
          simp only [hks] at h2
          exact h2
        have hnd_kidsE : (scopeEffList f (.scKids ks) st).Nodup :=
          (List.nodup_append.mp hndE).2.1
        have hdisjE : ((st.scopes s).effects).Disjoint (scopeEffList f (.scKids ks) st) :=
          (List.nodup_append.mp hndE).2.2
        have hnd_kidsI : (scopeIdList f (.scKids ks) st).Nodup :=
          (List.nodup_cons.mp hndI).2
        have hexec : exec (f + 1) (.scStop s fp) st
            = (scopeFinish s fp (exec f (.scKids ks) (scopePhase12 s st)).1, false, []) := by
          rw [exec]
          dsimp only
          rw [if_neg (by simp [hact])]
          have hm : ((scopePhase12 s st).scopes s).scopes = some ks := by
            rw [hsc2]; exact hks
          simp only [hm]
        have hagree : ∀ x ∈ scopeIdList f (.scKids ks) st,
            (scopePhase12 s st).scopes x = st.scopes x := fun x _ => congrFun hsc2 x
        have hidEq : scopeIdList f (.scKids ks) (scopePhase12 s st)
            = scopeIdList f (.scKids ks) st := scopeIdList_congr f _ st _ hagree
        have heffEq : scopeEffList f (.scKids ks) (scopePhase12 s st)
            = scopeEffList f (.scKids ks) st := scopeEffList_congr f _ st _ hagree
        have hallEq : allActiveScopes f (.scKids ks) (scopePhase12 s st)
            = allActiveScopes f (.scKids ks) st := allActiveScopes_congr f _ st _ hagree
        have hae2 : (scopePhase12 s st).activeEffect = none := by
          rw [scopePhase12_activeEffect]; exact hae
        obtain ⟨cLog, cAE, cFrame, cOff, cCasc, cSticky, cOn⟩ :=
          ih.2 ks (scopePhase12 s st) hae2 (by rw [hidEq]; exact hnd_kidsI)
            (by rw [heffEq]; exact hnd_kidsE) (by rw [hallEq]; exact hkidsAll)
        have hE2 : ∀ e ∈ scopeEffList f (.scKids ks) st,
            ((scopePhase12 s st).effects e).active = (st.effects e).active ∧
            ((scopePhase12 s st).effects e).hasOnStop = (st.effects e).hasOnStop := by
          intro e he
          exact ⟨scopePhase12_active_other s st e (fun hc => hdisjE hc he),
            scopePhase12_hasOnStop s st e⟩
        have hlogEq : scopeStopLog f (.scKids ks) (scopePhase12 s st)
            = scopeStopLog f (.scKids ks) st :=
          scopeStopLog_congr f _ st _ hagree hE2 (scopePhase12_activeEffect s st)
        refine ⟨?_, ?_, ?_, ?_, ?_, ?_, ?_⟩
        · rw [hexec]
          dsimp only
          rw [scopeFinish_log, cLog, hlogEq, scopePhase12_log s st hnd_own,
            scopeStopLog_stop_eq, if_pos hact]
          simp only [hks]
          simp [List.append_assoc]
        · rw [hexec]
          dsimp only
          rw [(scopeFinish_frame s fp _).2.2, cAE, scopePhase12_activeEffect]
        · intro hfp x hx
          subst hfp
          rw [hexec]
          dsimp only
          rw [scopeIdList_stop_eq] at hx
          simp only [hks] at hx
          have hxs : x ≠ s := by
            intro hc
            exact hx (by rw [hc]; exact List.mem_cons_self _ _)
          have hxk : x ∉ scopeIdList f (.scKids ks) st :=
            fun hc => hx (List.mem_cons_of_mem _ hc)
          rw [scopeFinish_scopes_other s _ x hxs,
            cFrame rfl x (by rw [hidEq]; exact hxk), congrFun hsc2 x]
        · intro e he
          rw [hexec]
          dsimp only
          rw [scopeEffList_stop_eq] at he
          simp only [hks] at he
          have heo : e ∉ (st.scopes s).effects :=
            fun hc => he (List.mem_append_left _ hc)
          have hek : e ∉ scopeEffList f (.scKids ks) st :=
            fun hc => he (List.mem_append_right _ hc)
          rw [(scopeFinish_frame s fp _).1,
            cOff e (by rw [heffEq]; exact hek), scopePhase12_active_other s st e heo]
        · intro e he
          rw [hexec]
          dsimp only
          rw [scopeEffList_stop_eq] at he
          simp only [hks] at he
          rw [(scopeFinish_frame s fp _).1]
          rcases List.mem_append.mp he with he | he
          · exact cSticky e (scopePhase12_deactivates s st hae e he)
          · exact cCasc e (by rw [heffEq]; exact he)
        · intro e h0
          rw [hexec]
          dsimp only
          rw [(scopeFinish_frame s fp _).1]
          exact cSticky e (scopePhase12_sticky s st e h0)
        · intro e
          rw [hexec]
          dsimp only
          rw [(scopeFinish_frame s fp _).1, cOn e]
          exact scopePhase12_hasOnStop s st e
    · -- the .scKids case
      intro ks st hae hndI hndE hall
      match ks with
      | [] =>
        unfold ScConcl
        rw [exec]
        exact ⟨by simp [scopeStopLog], rfl, fun _ x _ => rfl, fun e _ => rfl,
          fun e he => absurd he (by simp [scopeEffList]), fun e h => h, fun e => rfl⟩
      | c :: cs =>
        rw [scopeIdList_kids_cons_eq] at hndI
        rw [scopeEffList_kids_cons_eq] at hndE
        rw [allActiveScopes_kids_cons_eq, Bool.and_eq_true] at hall
        have hallC := hall.1
        have hallCs := hall.2
        have hndIC : (scopeIdList f (.scStop c true) st).Nodup := (List.nodup_append.mp hndI).1
        have hndICs : (scopeIdList f (.scKids cs) st).Nodup := (List.nodup_append.mp hndI).2.1
        have hdisjI : (scopeIdList f (.scStop c true) st).Disjoint (scopeIdList f (.scKids cs) st) :=
          (List.nodup_append.mp hndI).2.2
        have hndEC : (scopeEffList f (.scStop c true) st).Nodup := (List.nodup_append.mp hndE).1
        have hndECs : (scopeEffList f (.scKids cs) st).Nodup := (List.nodup_append.mp hndE).2.1
        have hdisjE : (scopeEffList f (.scStop c true) st).Disjoint (scopeEffList f (.scKids cs) st) :=
          (List.nodup_append.mp hndE).2.2
        obtain ⟨cLog, cAE, cFrame, cOff, cCasc, cSticky, cOn⟩ :=
          ih.1 c true st hae hndIC hndEC hallC
        have hexec : exec (f + 1) (.scKids (c :: cs)) st
            = exec f (.scKids cs) (exec f (.scStop c true) st).1 := by
          rw [exec]
        have hagree : ∀ x ∈ scopeIdList f (.scKids cs) st,
            ((exec f (.scStop c true) st).1).scopes x = st.scopes x :=
          fun x hx => cFrame rfl x (fun hc => hdisjI hc hx)
        have hidEq : scopeIdList f (.scKids cs) (exec f (.scStop c true) st).1
            = scopeIdList f (.scKids cs) st := scopeIdList_congr f _ st _ hagree
        have heffEq : scopeEffList f (.scKids cs) (exec f (.scStop c true) st).1
            = scopeEffList f (.scKids cs) st := scopeEffList_congr f _ st _ hagree
        have hallEq : allActiveScopes f (.scKids cs) (exec f (.scStop c true) st).1
            = allActiveScopes f (.scKids cs) st := allActiveScopes_congr f _ st _ hagree
        have hae1 : ((exec f (.scStop c true) st).1).activeEffect = none := by
          rw [cAE]; exact hae
        obtain ⟨dLog, dAE, dFrame, dOff, dCasc, dSticky, dOn⟩ :=
          ih.2 cs (exec f (.scStop c true) st).1 hae1 (by rw [hidEq]; exact hndICs)
            (by rw [heffEq]; exact hndECs) (by rw [hallEq]; exact hallCs)
        have hE1 : ∀ e ∈ scopeEffList f (.scKids cs) st,
            (((exec f (.scStop c true) st).1).effects e).active = (st.effects e).active ∧
            (((exec f (.scStop c true) st).1).effects e).hasOnStop
              = (st.effects e).hasOnStop := by
          intro e he
          exact ⟨cOff e (fun hc => hdisjE hc he), cOn e⟩
        have hlogEq : scopeStopLog f (.scKids cs) (exec f (.scStop c true) st).1
            = scopeStopLog f (.scKids cs) st :=
          scopeStopLog_congr f _ st _ hagree hE1 cAE
        refine ⟨?_, ?_, ?_, ?_, ?_, ?_, ?_⟩
        · rw [hexec, dLog, hlogEq, cLog, scopeStopLog_kids_cons_eq]
          simp [List.append_assoc]
        · rw [hexec, dAE, cAE]
        · intro _ x hx
          rw [scopeIdList_kids_cons_eq] at hx
          have hxc : x ∉ scopeIdList f (.scStop c true) st :=
            fun hc => hx (List.mem_append_left _ hc)
          have hxcs : x ∉ scopeIdList f (.scKids cs) st :=
            fun hc => hx (List.mem_append_right _ hc)
          rw [hexec, dFrame rfl x (by rw [hidEq]; exact hxcs), cFrame rfl x hxc]
        · intro e he
          rw [scopeEffList_kids_cons_eq] at he
          have hec : e ∉ scopeEffList f (.scStop c true) st :=
            fun hc => he (List.mem_append_left _ hc)
          have hecs : e ∉ scopeEffList f (.scKids cs) st :=
            fun hc => he (List.mem_append_right _ hc)
          rw [hexec, dOff e (by rw [heffEq]; exact hecs), cOff e hec]
        · intro e he
          rw [scopeEffList_kids_cons_eq] at he
          rw [hexec]
          rcases List.mem_append.mp he with he | he
          · exact dSticky e (cCasc e he)
          · exact dCasc e (by rw [heffEq]; exact he)
        · intro e h0
          rw [hexec]
          exact dSticky e (cSticky e h0)
        · intro e
          rw [hexec, dOn e, cOn e]

/-- C7 counterexample: scope 0 owns effect 1, and effect 1's fn calls
`scope.stop()` from inside its own run and then observes its `active` flag.
When `stop()` returns, the scope is inactive but its owned effect 1 is still
active (its disposal was deferred because it is the currently running
effect): the log records `active = true` observed after the stop returned,
and the `effStop` disposal happens only at run exit.  The claim's
"afterwards ... every transitively owned effect has active = false" is false
when stop() is invoked from inside an owned effect's run. -/
theorem scope_stop_on_running_owned_effect_defers :
    (exec 10 (.runE 1) exStC7r).1.log = [Ev.activeFlag 1 true, Ev.effStop 1] ∧
    ((exec 10 (.runE 1) exStC7r).1.scopes 0).active = false ∧
    ((exec 10 (.runE 1) exStC7r).1.effects 1).active = false := by
  refine ⟨?_, ?_, ?_⟩ <;> decide

/-- C7 (amended): for a stop() of an active scope performed while no effect
is running, over a cascade of distinct scopes with distinct owned effects,
all of them active: (a) the appended log is exactly `scopeStopLog` — per
visited scope the owned effects' stop events first, then the cleanup
callbacks in registration order, then the child scopes recursively with
`fromParent = true`; (b) afterwards the scope's parent link is dropped and it
is inactive; (c) every transitively owned effect ends with `active = false`;
(d) a non-detached scope with a live parent (not itself part of the cascade)
is removed from the parent's child list by the O(1) swap: the last child is
popped and, when different from the stopped scope, moved into its slot; (e) a
second stop() of the same scope returns with no state change.  What the
original claim misses is the deferred disposal of a currently-running owned
effect (see the counterexample). -/
theorem scope_stop_cascade (f s : Nat) (st : St)
    (hae : st.activeEffect = none)
    (hndI : (scopeIdList (f + 1) (.scStop s false) st).Nodup)
    (hndE : (scopeEffList (f + 1) (.scStop s false) st).Nodup)
    (hall : allActiveScopes (f + 1) (.scStop s false) st = true) :
    (exec (f + 1) (.scStop s false) st).1.log
        = st.log ++ scopeStopLog (f + 1) (.scStop s false) st ∧
    ((exec (f + 1) (.scStop s false) st).1.scopes s).parent = none ∧
    ((exec (f + 1) (.scStop s false) st).1.scopes s).active = false ∧
    (∀ e, e ∈ scopeEffList (f + 1) (.scStop s false) st →
      ((exec (f + 1) (.scStop s false) st).1.effects e).active = false) ∧
    (∀ p ps i, (st.scopes s).detached = false → (st.scopes s).parent = some p →
      p ∉ scopeIdList (f + 1) (.scStop s false) st →
      (st.scopes p).scopes = some ps → (st.scopes s).index = some i →
      ((exec (f + 1) (.scStop s false) st).1.scopes p).scopes = some (
        match ps.getLast? with
        | none => ps.dropLast
        | some l => if l ≠ s then ps.dropLast.set i l else ps.dropLast)) ∧
    (∀ (g : Nat) (fp' : Bool),
      exec (g + 1) (.scStop s fp') (exec (f + 1) (.scStop s false) st).1
        = ((exec (f + 1) (.scStop s false) st).1, false, [])) := by
  have hall' := hall
  rw [allActiveScopes_stop_eq, Bool.and_eq_true] at hall'
  have hact : (st.scopes s).active = true := hall'.1
  obtain ⟨cLog, cAE, _, cOff, cCasc, cSticky, cOn⟩ :=
    (scStop_master (f + 1)).1 s false st hae hndI hndE hall
  have hexec : exec (f + 1) (.scStop s false) st
      = (scopeFinish s false
          (match ((scopePhase12 s st).scopes s).scopes with
           | none => scopePhase12 s st
           | some ks => (exec f (.scKids ks) (scopePhase12 s st)).1), false, []) := by
    rw [exec]
    dsimp only
    rw [if_neg (by simp [hact])]
  have hbP : ((exec (f + 1) (.scStop s false) st).1.scopes s).parent = none := by
    rw [hexec]
    dsimp only
    exact (scopeFinish_self s false _).1
  have hbA : ((exec (f + 1) (.scStop s false) st).1.scopes s).active = false := by
    rw [hexec]
    dsimp only
    exact (scopeFinish_self s false _).2
  have hgen : ∀ (stF : St), (stF.scopes s).active = false → ∀ (g : Nat) (fp' : Bool),
      exec (g + 1) (.scStop s fp') stF = (stF, false, []) := by
    intro stF hF g fp'
    rw [exec]
    dsimp only
    rw [if_pos (by simp [hF])]
  refine ⟨cLog, hbP, hbA, fun e he => cCasc e he, ?_, fun g fp' => hgen _ hbA g fp'⟩
  intro p ps i hdet hpar hpn hps hidx
  have hpne : p ≠ s := by
    intro hc
    refine hpn ?_
    rw [hc, scopeIdList_stop_eq]
    exact List.mem_cons_self _ _
  rw [hexec]
  dsimp only
  have hsc2 : (scopePhase12 s st).scopes = st.scopes := scopePhase12_scopes s st
  cases hks : (st.scopes s).scopes with
  | none =>
    have hm : ((scopePhase12 s st).scopes s).scopes = none := by
      rw [congrFun hsc2 s]; exact hks
    simp only [hm]
    exact scopeFinish_swap s p ps i (scopePhase12 s st)
      (by rw [congrFun hsc2 s]; exact hdet)
      (by rw [congrFun hsc2 s]; exact hpar)
      (by rw [congrFun hsc2 p]; exact hps)
      (by rw [congrFun hsc2 s]; exact hidx)
      hpne
  | some ks =>
    have hm : ((scopePhase12 s st).scopes s).scopes = some ks := by
      rw [congrFun hsc2 s]; exact hks
    simp only [hm]
    have hndI' := hndI
    rw [scopeIdList_stop_eq] at hndI'
    simp only [hks] at hndI'
    have hndE' := hndE
    rw [scopeEffList_stop_eq] at hndE'
    simp only [hks] at hndE'
    have hkidsAll : allActiveScopes f (.scKids ks) st = true := by
      have h2 := hall'.2
      simp only [hks] at h2
      exact h2
    have hnd_kidsI : (scopeIdList f (.scKids ks) st).Nodup := (List.nodup_cons.mp hndI').2
    have hnd_kidsE : (scopeEffList f (.scKids ks) st).Nodup := (List.nodup_append.mp hndE').2.1
    have hagree : ∀ x ∈ scopeIdList f (.scKids ks) st,
        (scopePhase12 s st).scopes x = st.scopes x := fun x _ => congrFun hsc2 x
    have hidEq := scopeIdList_congr f (.scKids ks) st _ hagree
    have heffEq := scopeEffList_congr f (.scKids ks) st _ hagree
    have hallEq := allActiveScopes_congr f (.scKids ks) st _ hagree
    have hae2 : (scopePhase12 s st).activeEffect = none := by
      rw [scopePhase12_activeEffect]; exact hae
    obtain ⟨-, -, dFrame, -, -, -, -⟩ :=
      (scStop_master f).2 ks (scopePhase12 s st) hae2 (by rw [hidEq]; exact hnd_kidsI)
        (by rw [heffEq]; exact hnd_kidsE) (by rw [hallEq]; exact hkidsAll)
    have hsK : s ∉ scopeIdList f (.scKids ks) st := (List.nodup_cons.mp hndI').1
    have hpK : p ∉ scopeIdList f (.scKids ks) st := by
      intro hc
      refine hpn ?_
      rw [scopeIdList_stop_eq]
      simp only [hks]
      exact List.mem_cons_of_mem _ hc
    have hs3 : (exec f (.scKids ks) (scopePhase12 s st)).1.scopes s = st.scopes s := by
      rw [dFrame rfl s (by rw [hidEq]; exact hsK), congrFun hsc2 s]
    have hp3 : (exec f (.scKids ks) (scopePhase12 s st)).1.scopes p = st.scopes p := by
      rw [dFrame rfl p (by rw [hidEq]; exact hpK), congrFun hsc2 p]
    exact scopeFinish_swap s p ps i _ (by rw [hs3]; exact hdet) (by rw [hs3]; exact hpar)
      (by rw [hp3]; exact hps) (by rw [hs3]; exact hidx) hpne

/-- Witness for the amended C7 theorem on the concrete cascade: stopping
scope 5 (child of scope 0 at index 0, with sibling 6, owning effect 3 with
onStop, cleanup 11 and child scope 8 owning effect 7) emits the predicted
log in order, drops the parent link, deactivates the scope and both owned
effects, swap-removes 5 from scope 0's child list (last child 6 moves into
slot 0), and a second stop is a no-op. -/
theorem scope_stop_cascade_witness :
    (exec 4 (.scStop 5 false) exStC7w).1.log
        = [Ev.effStop 3, Ev.onStopEv 3, Ev.cleanup 11, Ev.effStop 7] ∧
    ((exec 4 (.scStop 5 false) exStC7w).1.scopes 5).parent = none ∧
    ((exec 4 (.scStop 5 false) exStC7w).1.scopes 5).active = false ∧
    ((exec 4 (.scStop 5 false) exStC7w).1.effects 3).active = false ∧
    ((exec 4 (.scStop 5 false) exStC7w).1.effects 7).active = false ∧
    ((exec 4 (.scStop 5 false) exStC7w).1.scopes 0).scopes = some [6] ∧
    exec 4 (.scStop 5 false) (exec 4 (.scStop 5 false) exStC7w).1
        = ((exec 4 (.scStop 5 false) exStC7w).1, false, []) := by
  obtain ⟨hLog, hbP, hbA, hCasc, hSwap, hIdem⟩ :=
    scope_stop_cascade 3 5 exStC7w rfl (by decide) (by decide) (by decide)
  refine ⟨?_, hbP, hbA, hCasc 3 (by decide), hCasc 7 (by decide), ?_, hIdem 3 false⟩
  · rw [hLog]
    decide
  · exact hSwap 0 [5, 6] 0 rfl rfl (by decide) rfl rfl
